import Mathlib

/-!
# rlox — a shallow embedding of the interpreter pipeline

A Lean model of the rlox tree-walking interpreter: lexer
(src/lexer/mod.rs), parser (src/parser/mod.rs), resolver
(src/resolver/mod.rs) and evaluator (src/interpreter/mod.rs), together
with theorems settling the specification's claims about them.

Modelling conventions:
  - Rust `f64` numbers are modelled as `ℚ` (the claims under study do
    not depend on floating-point rounding, infinities or NaN).
  - Rust `HashMap` frames are modelled as association lists; `insert`
    prepends, `get` returns the first hit, which gives the same
    lookup semantics.  Iteration order of a `HashMap` is unspecified
    in Rust; the model iterates in list order.
  - `Rc<RefCell<Environment>>` sharing is modelled by a store of
    frames addressed by index (`St.frames`), the current environment
    being an index into the store.
  - Unbounded recursion / loops are given explicit fuel; running out
    of fuel is the distinguished result `Res.timeout`.
  - Rust panics (`expect`, `unwrap`, `panic!` arms, failed
    `assert_eq!`) are the distinguished result `Res.crash`.
  - Fallible Rust functions returning `Result` map to `Res.ok` /
    `Res.err`; errors carry the state at the moment of the early
    return, which is what lets us reason about what was (not)
    unwound.
-/

/-- Outcome of running one embedded Rust function: a value and the
state after, an early-returned error and the state after, a panic, or
fuel exhaustion. -/
inductive Res (ε σ α : Type) where
  | ok : α → σ → Res ε σ α
  | err : ε → σ → Res ε σ α
  | crash : Res ε σ α
  | timeout : Res ε σ α
deriving Repr

/-- Sequencing for `Res`: on `ok` continue, anything else propagates
(the Rust `?` operator / early return). -/
def Res.andThen {ε σ α β : Type} (r : Res ε σ α) (f : α → σ → Res ε σ β) : Res ε σ β :=
  match r with
  | .ok a s => f a s
  | .err e s => .err e s
  | .crash => .crash
  | .timeout => .timeout

theorem Res.andThen_ok {ε σ α β : Type} (a : α) (s : σ) (f : α → σ → Res ε σ β) :
    Res.andThen (.ok a s) f = f a s := rfl

/-! ## Tokens (src/lexer/tokens.rs) -/

/-- `TokenKind` from src/lexer/tokens.rs.  Keyword constructors carry a
`k` sigil to stay clear of Lean keywords. -/
inductive TokenKind where
  | leftParen | rightParen | leftBrace | rightBrace
  | comma | dot | minus | plus | semicolon | slash | star
  | bang | bangEqual | equal | equalEqual
  | greater | greaterEqual | less | lessEqual
  | identifier (name : String)
  | string (text : String)
  | number (value : ℚ)
  | kAnd | kClass | kElse | kFalse | kFun | kFor | kIf | kNil | kOr
  | kPrint | kReturn | kSuper | kThis | kTrue | kVar | kWhile
  | eof
deriving Repr, DecidableEq

/-- `Token` from src/lexer/tokens.rs: line, column, kind. -/
structure Token where
  line : Nat
  col : Nat
  kind : TokenKind
deriving Repr, DecidableEq

/-- `Token::extract_identifier` (panics on non-identifier tokens, hence
`Option`; `none` models the panic). -/
def Token.extractIdentifier (t : Token) : Option String :=
  match t.kind with
  | .identifier name => some name
  | _ => none

/-! ## Lexer (src/lexer/mod.rs) -/

/-- `LexerErrorKind` from src/lexer/errors.rs. -/
inductive LexerErrorKind where
  | unexpectedChar (c : Char)
  | unterminatedString
  | invalidNumber (text : String)
deriving Repr, DecidableEq

/-- `LexerError` from src/lexer/errors.rs. -/
structure LexerError where
  line : Nat
  col : Nat
  kind : LexerErrorKind
deriving Repr, DecidableEq

/-- The `Lexer` struct: source characters plus cursor state. -/
structure LexState where
  src : List Char
  pos : Nat
  line : Nat
  col : Nat
deriving Repr, DecidableEq

/-- `Lexer::new`. -/
def LexState.init (source : String) : LexState :=
  ⟨source.toList, 0, 1, 1⟩

/-- `Lexer::peek`. -/
def LexState.peek (st : LexState) : Option Char :=
  st.src.get? st.pos

/-- `Lexer::prev`. -/
def LexState.prevChar (st : LexState) : Option Char :=
  st.src.get? (st.pos - 1)

/-- `Lexer::consume`: advance past one character, maintaining line and
column counters.  Returns the consumed character (or `none` at end of
input) and the updated state. -/
def LexState.consume (st : LexState) : Option Char × LexState :=
  match st.peek with
  | some ch =>
      let st := if ch = '\n' then { st with line := st.line + 1, col := 0 } else st
      (some ch, { st with pos := st.pos + 1, col := st.col + 1 })
  | none => (none, st)

/-- `Lexer::match_optional_equal`: greedily take a following `=`. -/
def matchOptionalEqual (st : LexState) (dflt optional : TokenKind) :
    TokenKind × LexState :=
  match st.peek with
  | some '=' => (optional, (st.consume).2)
  | _ => (dflt, st)

/-- The collection loop of `Lexer::match_string`: gather characters up
to (not including) the closing quote. -/
def stringLoop : Nat → LexState → String → String × LexState
  | 0, st, acc => (acc, st)
  | fuel + 1, st, acc =>
      match st.peek with
      | some ch =>
          if ch = '"' then (acc, st)
          else stringLoop fuel (st.consume).2 (acc.push ch)
      | none => (acc, st)

/-- `Lexer::match_string`. -/
def matchString (fuel : Nat) (st : LexState) : Res LexerError LexState TokenKind :=
  let (result, st) := stringLoop fuel st ""
  match st.peek with
  | none => .err ⟨st.line, st.col, .unterminatedString⟩ st
  | some _ => .ok (.string result) (st.consume).2

/-- The collection loop shared by `match_number` and
`match_identifier_or_keyword`: gather characters satisfying `keep`. -/
def runLoop (keep : Char → Bool) : Nat → LexState → String → String × LexState
  | 0, st, acc => (acc, st)
  | fuel + 1, st, acc =>
      match st.peek with
      | some ch =>
          if keep ch then runLoop keep fuel (st.consume).2 (acc.push ch)
          else (acc, st)
      | none => (acc, st)

/-- Model of Rust's `str::parse::<f64>` restricted to the strings the
lexer can feed it (ASCII digits and dots): at most one dot and at least
one digit, read as an exact rational. -/
def parseNumber (s : String) : Option ℚ :=
  let chars := s.toList
  if chars.all (fun c => c.isDigit || c = '.') &&
     (chars.filter (· = '.')).length ≤ 1 &&
     (chars.any Char.isDigit) then
    let intPart := chars.takeWhile (· ≠ '.')
    let fracPart := (chars.dropWhile (· ≠ '.')).drop 1
    let digitsVal : List Char → Nat :=
      fun ds => ds.foldl (fun acc d => 10 * acc + (d.toNat - '0'.toNat)) 0
    some ((digitsVal intPart : ℚ) +
      (digitsVal fracPart : ℚ) / ((10 : ℚ) ^ fracPart.length))
  else
    none

/-- `Lexer::match_number`: the consumed digit plus a run of digits and
dots, parsed as a number. -/
def matchNumber (fuel : Nat) (st : LexState) : Res LexerError LexState TokenKind :=
  match st.prevChar with
  | none => .crash
  | some first =>
      let (text, st) :=
        runLoop (fun ch => ch.isDigit || ch = '.') fuel st (String.mk [first])
      match parseNumber text with
      | some n => .ok (.number n) st
      | none => .err ⟨st.line, st.col, .invalidNumber text⟩ st

/-- The keyword table of `Lexer::match_identifier_or_keyword`. -/
def keywordOrIdentifier (value : String) : TokenKind :=
  match value with
  | "and" => .kAnd
  | "class" => .kClass
  | "else" => .kElse
  | "false" => .kFalse
  | "fun" => .kFun
  | "for" => .kFor
  | "if" => .kIf
  | "nil" => .kNil
  | "or" => .kOr
  | "print" => .kPrint
  | "return" => .kReturn
  | "super" => .kSuper
  | "this" => .kThis
  | "true" => .kTrue
  | "var" => .kVar
  | "while" => .kWhile
  | _ => .identifier value

/-- `Lexer::match_identifier_or_keyword`. -/
def matchIdentifierOrKeyword (fuel : Nat) (st : LexState) :
    Res LexerError LexState TokenKind :=
  match st.prevChar with
  | none => .crash
  | some first =>
      let (value, st) :=
        runLoop (fun ch => ch.isAlphanum || ch = '_') fuel st (String.mk [first])
      .ok (keywordOrIdentifier value) st

/-- One arm of the `match ch` in `Lexer::tokenize`: scan the token that
starts with the already-consumed character `ch`.  `ok none` is the
whitespace `continue`. -/
def scanToken (fuel : Nat) (ch : Char) (st : LexState) :
    Res LexerError LexState (Option TokenKind) :=
  match ch with
  | '(' => .ok (some .leftParen) st
  | ')' => .ok (some .rightParen) st
  | '{' => .ok (some .leftBrace) st
  | '}' => .ok (some .rightBrace) st
  | ',' => .ok (some .comma) st
  | '.' => .ok (some .dot) st
  | '-' => .ok (some .minus) st
  | '+' => .ok (some .plus) st
  | ';' => .ok (some .semicolon) st
  | '/' => .ok (some .slash) st
  | '*' => .ok (some .star) st
  | '!' => let (k, st) := matchOptionalEqual st .bang .bangEqual; .ok (some k) st
  | '=' => let (k, st) := matchOptionalEqual st .equal .equalEqual; .ok (some k) st
  | '>' => let (k, st) := matchOptionalEqual st .greater .greaterEqual; .ok (some k) st
  | '<' => let (k, st) := matchOptionalEqual st .less .lessEqual; .ok (some k) st
  | '"' => (matchString fuel st).andThen fun k st => .ok (some k) st
  | other =>
      if other.isDigit then
        (matchNumber fuel st).andThen fun k st => .ok (some k) st
      else if other.isAlpha then
        (matchIdentifierOrKeyword fuel st).andThen fun k st => .ok (some k) st
      else if other = ' ' || other = '\t' || other = '\r' || other = '\n' then
        .ok none st
      else
        .err ⟨st.line, st.col, .unexpectedChar other⟩ st

/-- The `while let Some(ch) = self.consume()` loop of `Lexer::tokenize`:
the tokens pushed by the loop body (the final `Eof` is appended by
`tokenize` afterwards). -/
def tokenizeLoop : Nat → LexState → Res LexerError LexState (List Token)
  | 0, _ => .timeout
  | fuel + 1, st =>
      match st.consume with
      | (none, st') => .ok [] st'
      | (some ch, st') =>
          (scanToken fuel ch st').andThen fun k? st2 =>
            match k? with
            | none => tokenizeLoop fuel st2
            | some k =>
                (tokenizeLoop fuel st2).andThen fun rest st3 =>
                  .ok (⟨st2.line, st2.col, k⟩ :: rest) st3

/-- `Lexer::tokenize`: run the loop, then push the final `Eof` token at
the current line and column. -/
def tokenize (fuel : Nat) (st : LexState) : Res LexerError LexState (List Token) :=
  (tokenizeLoop fuel st).andThen fun toks st' =>
    .ok (toks ++ [⟨st'.line, st'.col, .eof⟩]) st'

/-! ## Inversion helpers for `Res` -/

theorem Res.andThen_eq_ok {ε σ α β : Type} {r : Res ε σ α}
    {f : α → σ → Res ε σ β} {b : β} {s' : σ} (h : r.andThen f = .ok b s') :
    ∃ a s1, r = .ok a s1 ∧ f a s1 = .ok b s' := by
  cases r with
  | ok a s => exact ⟨a, s, rfl, h⟩
  | err e s => cases h
  | crash => cases h
  | timeout => cases h

/-! ## C7: shape lemmas for the token kinds each scanner can return -/

theorem matchString_shape {fuel : Nat} {st : LexState} {k : TokenKind}
    {st' : LexState} (h : matchString fuel st = .ok k st') :
    ∃ s, k = .string s := by
  unfold matchString at h
  split at h
  split at h
  · cases h
  · cases h
    exact ⟨_, rfl⟩

theorem matchNumber_shape {fuel : Nat} {st : LexState} {k : TokenKind}
    {st' : LexState} (h : matchNumber fuel st = .ok k st') :
    ∃ n, k = .number n := by
  unfold matchNumber at h
  split at h
  · cases h
  · split at h
    split at h
    · cases h
      exact ⟨_, rfl⟩
    · cases h

theorem keywordOrIdentifier_ne_eof (value : String) :
    keywordOrIdentifier value ≠ .eof := by
  unfold keywordOrIdentifier
  split <;> simp

theorem matchIdentifierOrKeyword_shape {fuel : Nat} {st : LexState}
    {k : TokenKind} {st' : LexState}
    (h : matchIdentifierOrKeyword fuel st = .ok k st') : k ≠ .eof := by
  unfold matchIdentifierOrKeyword at h
  split at h
  · cases h
  · split at h
    cases h
    exact keywordOrIdentifier_ne_eof _

theorem matchOptionalEqual_shape {st : LexState} {dflt optional : TokenKind}
    {k : TokenKind} {st' : LexState}
    (h : matchOptionalEqual st dflt optional = (k, st')) :
    k = dflt ∨ k = optional := by
  unfold matchOptionalEqual at h
  split at h
  · cases h
    exact Or.inr rfl
  · cases h
    exact Or.inl rfl

/-- No branch of the scanner dispatch ever produces an `Eof` token; the
only `Eof` is the one `tokenize` appends after the loop. -/
theorem scanToken_ne_eof {fuel : Nat} {ch : Char} {st : LexState}
    {k : TokenKind} {st' : LexState}
    (h : scanToken fuel ch st = .ok (some k) st') : k ≠ .eof := by
  unfold scanToken at h
  split at h <;>
    try (cases h; simp)
  all_goals try (split <;> simp)
  · obtain ⟨k1, st1, hs, h2⟩ := Res.andThen_eq_ok h
    cases h2
    obtain ⟨s, rfl⟩ := matchString_shape hs
    simp
  split at h
  · obtain ⟨k1, st1, hs, h2⟩ := Res.andThen_eq_ok h
    cases h2
    obtain ⟨n, rfl⟩ := matchNumber_shape hs
    simp
  · split at h
    · obtain ⟨k1, st1, hs, h2⟩ := Res.andThen_eq_ok h
      cases h2
      exact matchIdentifierOrKeyword_shape hs
    · split at h
      · cases h
      · cases h

/-- The scanning loop of `tokenize` never emits an `Eof` token. -/
theorem tokenizeLoop_no_eof :
    ∀ (fuel : Nat) (st : LexState) (toks : List Token) (st' : LexState),
      tokenizeLoop fuel st = .ok toks st' →
      ∀ t ∈ toks, t.kind ≠ .eof := by
  intro fuel
  induction fuel with
  | zero =>
      intro st toks st' h
      cases h
  | succ f ih =>
      intro st toks st' h
      rw [tokenizeLoop] at h
      split at h
      · cases h
        intro t ht
        cases ht
      · obtain ⟨k?, st2, hscan, h2⟩ := Res.andThen_eq_ok h
        cases k? with
        | none =>
            exact ih st2 toks st' h2
        | some k =>
            obtain ⟨rest, st3, hrest, h3⟩ := Res.andThen_eq_ok h2
            cases h3
            intro t ht
            rcases List.mem_cons.mp ht with rfl | hmem
            · exact scanToken_ne_eof hscan
            · exact ih st2 rest _ hrest t hmem

/-- C7: for every source string on which the lexer succeeds, the
returned token list is non-empty, its last element is the `Eof` token,
and no other element is `Eof`. -/
theorem tokenize_exactly_one_eof_last
    (fuel : Nat) (source : String) (toks : List Token) (st' : LexState)
    (h : tokenize fuel (LexState.init source) = .ok toks st') :
    ∃ ts tEof, toks = ts ++ [tEof] ∧ tEof.kind = .eof ∧
      ∀ t ∈ ts, t.kind ≠ .eof := by
  unfold tokenize at h
  obtain ⟨ts, st1, hloop, h2⟩ := Res.andThen_eq_ok h
  cases h2
  exact ⟨ts, _, rfl, rfl,
    tokenizeLoop_no_eof fuel (LexState.init source) ts _ hloop⟩

/-- Witness for `tokenize_exactly_one_eof_last` on the source
`var x = y;`. -/
theorem tokenize_exactly_one_eof_last_witness :
    ∃ ts tEof,
      [(⟨1, 4, .kVar⟩ : Token), ⟨1, 6, .identifier "x"⟩, ⟨1, 8, .equal⟩,
       ⟨1, 10, .identifier "y"⟩, ⟨1, 11, .semicolon⟩, ⟨1, 11, .eof⟩] =
        ts ++ [tEof] ∧ tEof.kind = .eof ∧ ∀ t ∈ ts, t.kind ≠ .eof :=
  tokenize_exactly_one_eof_last 100 "var x = y;"
    [⟨1, 4, .kVar⟩, ⟨1, 6, .identifier "x"⟩, ⟨1, 8, .equal⟩,
     ⟨1, 10, .identifier "y"⟩, ⟨1, 11, .semicolon⟩, ⟨1, 11, .eof⟩]
    ⟨"var x = y;".toList, 10, 1, 11⟩ (by rfl)

/-! ## AST (src/parser/expr.rs, src/parser/stmt.rs, src/parser/value.rs)

`Expr`, `Stmt` and the runtime `Value` are mutually recursive in the
Rust source (a literal holds a `Value`; a callable value holds its
body `Stmt`).  `Rc<dyn LoxCallable>` has `LoxFunction`
(src/interpreter/callable/fun.rs) as its only implementation, so the
`callable` variant inlines that struct; its captured
`Rc<RefCell<Environment>>` is an index into the evaluator's frame
store. -/

mutual

inductive Expr where
  | unary (op : Token) (right : Expr)
  | binary (left : Expr) (op : Token) (right : Expr)
  | grouping (inner : Expr)
  | literal (value : Value)
  | variableE (id : Nat) (nameTok : Token)
  | assignment (id : Nat) (nameTok : Token) (expr : Expr)
  | logical (left : Expr) (op : Token) (right : Expr)
  | funCall (callee : Expr) (paren : Token) (args : List Expr)

inductive Stmt where
  | exprStmt (expr : Expr)
  | printStmt (expr : Expr)
  | varDecl (nameTok : Token) (expr : Option Expr)
  | block (stmts : List Stmt)
  | ifS (condition : Expr) (thenStmt : Stmt) (elseStmt : Option Stmt)
  | whileS (condition : Expr) (body : Stmt)
  | funDecl (name : Token) (params : List Token) (body : Stmt)
  | returnS (expr : Expr)

inductive Value where
  | number (n : ℚ)
  | str (s : String)
  | bool (b : Bool)
  | nil
  | callable (name : Token) (params : List Token) (body : Stmt)
      (environment : Nat)

end

/-- `ControlSignal` from src/parser/control_signal.rs: `None` or
`Return(Value)`. -/
inductive ControlSignal where
  | noneSig
  | ret (value : Value)

/-! ## Parser (src/parser/mod.rs) -/

/-- `ParseErrorKind` from src/parser/errors.rs. -/
inductive ParseErrorKind where
  | expectedExpression
  | expected (what : String)
deriving Repr, DecidableEq

/-- `ParseError` from src/parser/errors.rs (`ParseError::at`). -/
structure ParseError where
  token : Token
  kind : ParseErrorKind
deriving Repr, DecidableEq

/-- `TokenKind::name` from src/lexer/tokens.rs (used for
`consume_expect` diagnostics). -/
def TokenKind.name : TokenKind → String
  | .leftParen => "("
  | .rightParen => ")"
  | .leftBrace => "\x7b"
  | .rightBrace => "\x7d"
  | .comma => ","
  | .dot => "."
  | .minus => "-"
  | .plus => "+"
  | .semicolon => ";"
  | .slash => "/"
  | .star => "*"
  | .bang => "!"
  | .bangEqual => "!="
  | .equal => "="
  | .equalEqual => "=="
  | .greater => ">"
  | .greaterEqual => ">="
  | .less => "<"
  | .lessEqual => "<="
  | .identifier _ => "identifier"
  | .string _ => "string"
  | .number _ => "number"
  | .kAnd => "and"
  | .kClass => "class"
  | .kElse => "else"
  | .kFalse => "false"
  | .kFun => "function"
  | .kFor => "for"
  | .kIf => "if"
  | .kNil => "nil"
  | .kOr => "or"
  | .kPrint => "print"
  | .kReturn => "return"
  | .kSuper => "super"
  | .kThis => "this"
  | .kTrue => "true"
  | .kVar => "var"
  | .kWhile => "while"
  | .eof => "eof"

/-- The `Parser` struct: token list, cursor, collected errors, and the
monotone `Variable`/`Assignment` id counter. -/
structure PState where
  tokens : List Token
  pos : Nat
  errors : List ParseError
  currVarId : Nat
deriving Repr, DecidableEq

/-- `Parser::new` (the `Eof`-at-end precondition is the caller's
responsibility; `Parser::new` panics otherwise). -/
def PState.init (tokens : List Token) : PState :=
  ⟨tokens, 0, [], 0⟩

/-- `Parser::peek` (panics past the end, hence `Option`). -/
def PState.peekT (st : PState) : Option Token :=
  st.tokens.get? st.pos

/-- `Parser::prev`. -/
def PState.prevT (st : PState) (offset : Nat) : Option Token :=
  st.tokens.get? (st.pos - offset)

/-- `Parser::consume`: stand still on `Eof`, otherwise advance and
return the consumed token. -/
def PState.consumeT (st : PState) : Res ParseError PState Token :=
  match st.peekT with
  | none => .crash
  | some t =>
      if t.kind = .eof then .ok t st
      else .ok t { st with pos := st.pos + 1 }

/-- `Parser::consume_optional` (specialised from
`consume_optional_token`): consume the next token iff it has the given
kind. -/
def PState.consumeOptional (st : PState) (kind : TokenKind) :
    Res ParseError PState Bool :=
  match st.peekT with
  | none => .crash
  | some t =>
      if t.kind = kind then (st.consumeT).andThen fun _ st => .ok true st
      else .ok false st

/-- `Parser::consume_expect` (specialised from `consume_expect_token`):
consume a token of the given kind or fail with `Expected`. -/
def PState.consumeExpect (st : PState) (kind : TokenKind) :
    Res ParseError PState Token :=
  match st.peekT with
  | none => .crash
  | some t =>
      if t.kind = kind then st.consumeT
      else .err ⟨t, .expected kind.name⟩ st

/-- `Parser::consume_expect_identifier`. -/
def PState.consumeExpectIdentifier (st : PState) :
    Res ParseError PState Token :=
  match st.peekT with
  | none => .crash
  | some t =>
      match t.kind with
      | .identifier _ => st.consumeT
      | _ => .err ⟨t, .expected "identifier"⟩ st

/-- `Parser::incr_var_id`. -/
def PState.incrVarId (st : PState) : Nat × PState :=
  (st.currVarId + 1, { st with currVarId := st.currVarId + 1 })

/-- The assembly at the end of `Parser::for_stmt`: wrap the increment
into the loop body when present, build the `While`, and wrap the
initializer into an enclosing `Block` when present. -/
def forAssemble (initOpt : Option Stmt) (cond : Expr) (incrOpt : Option Expr)
    (body : Stmt) : Stmt :=
  let body :=
    match incrOpt with
    | some incr => Stmt.block [body, .exprStmt incr]
    | none => body
  let whileStmt := Stmt.whileS cond body
  match initOpt with
  | some init => .block [init, whileStmt]
  | none => whileStmt

/-! ### The recursive-descent parser of src/parser/mod.rs

Every function
takes fuel and spends one unit per call into another parser function,
so the mutual recursion is well-founded; `Res.timeout` never occurs on
inputs lexed from finite sources given enough fuel.  The generic
`parse_logical` / `parse_binary` combinators of the source are
specialised to each call site (`or`, `and`, `equality`, `comparison`,
`term`, `factor`), with one explicit loop each. -/

mutual

def declarationP (fuel : Nat) (st : PState) : Res ParseError PState Stmt :=
  match fuel with
  | 0 => .timeout
  | f + 1 =>
      match st.peekT with
      | none => .crash
      | some t =>
          match t.kind with
          | .kVar => varDeclP f st
          | .kFun => funDeclP f st
          | _ => statementP f st

def varDeclP (fuel : Nat) (st : PState) : Res ParseError PState Stmt :=
  match fuel with
  | 0 => .timeout
  | f + 1 =>
      (st.consumeExpect .kVar).andThen fun _ st =>
        (st.consumeExpectIdentifier).andThen fun iden st =>
          (st.consumeOptional .equal).andThen fun hasInit st =>
            if hasInit then
              (expressionP f st).andThen fun e st =>
                (st.consumeExpect .semicolon).andThen fun _ st =>
                  .ok (.varDecl iden (some e)) st
            else
              (st.consumeExpect .semicolon).andThen fun _ st =>
                .ok (.varDecl iden none) st

def funDeclP (fuel : Nat) (st : PState) : Res ParseError PState Stmt :=
  match fuel with
  | 0 => .timeout
  | f + 1 =>
      (st.consumeExpect .kFun).andThen fun _ st =>
        (st.consumeExpectIdentifier).andThen fun name st =>
          (st.consumeExpect .leftParen).andThen fun _ st =>
            (parametersP f st).andThen fun params st =>
              (st.consumeExpect .rightParen).andThen fun _ st =>
                (blockStmtP f st).andThen fun body st =>
                  .ok (.funDecl name params body) st

def parametersP (fuel : Nat) (st : PState) : Res ParseError PState (List Token) :=
  match fuel with
  | 0 => .timeout
  | f + 1 =>
      match st.peekT with
      | none => .crash
      | some t =>
          if t.kind = .rightParen then .ok [] st
          else paramsLoop f st

def paramsLoop (fuel : Nat) (st : PState) : Res ParseError PState (List Token) :=
  match fuel with
  | 0 => .timeout
  | f + 1 =>
      (st.consumeExpectIdentifier).andThen fun p st =>
        match st.peekT with
        | none => .crash
        | some t =>
            if t.kind = .rightParen then .ok [p] st
            else
              (st.consumeExpect .comma).andThen fun _ st =>
                (paramsLoop f st).andThen fun rest st =>
                  .ok (p :: rest) st

def statementP (fuel : Nat) (st : PState) : Res ParseError PState Stmt :=
  match fuel with
  | 0 => .timeout
  | f + 1 =>
      match st.peekT with
      | none => .crash
      | some t =>
          match t.kind with
          | .kPrint => printStmtP f st
          | .leftBrace => blockStmtP f st
          | .kIf => ifStmtP f st
          | .kWhile => whileStmtP f st
          | .kFor => forStmtP f st
          | .kReturn => returnStmtP f st
          | _ => exprStmtP f st

def printStmtP (fuel : Nat) (st : PState) : Res ParseError PState Stmt :=
  match fuel with
  | 0 => .timeout
  | f + 1 =>
      (st.consumeExpect .kPrint).andThen fun _ st =>
        (expressionP f st).andThen fun e st =>
          (st.consumeExpect .semicolon).andThen fun _ st =>
            .ok (.printStmt e) st

def blockStmtP (fuel : Nat) (st : PState) : Res ParseError PState Stmt :=
  match fuel with
  | 0 => .timeout
  | f + 1 =>
      (st.consumeExpect .leftBrace).andThen fun _ st =>
        (blockLoop f st).andThen fun stmts st =>
          (st.consumeExpect .rightBrace).andThen fun _ st =>
            .ok (.block stmts) st

def blockLoop (fuel : Nat) (st : PState) : Res ParseError PState (List Stmt) :=
  match fuel with
  | 0 => .timeout
  | f + 1 =>
      match st.peekT with
      | none => .crash
      | some t =>
          if t.kind = .rightBrace ∨ t.kind = .eof then .ok [] st
          else
            (declarationP f st).andThen fun stmt st =>
              (blockLoop f st).andThen fun rest st =>
                .ok (stmt :: rest) st

def ifStmtP (fuel : Nat) (st : PState) : Res ParseError PState Stmt :=
  match fuel with
  | 0 => .timeout
  | f + 1 =>
      (st.consumeExpect .kIf).andThen fun _ st =>
        (st.consumeExpect .leftParen).andThen fun _ st =>
          (expressionP f st).andThen fun cond st =>
            (st.consumeExpect .rightParen).andThen fun _ st =>
              (statementP f st).andThen fun thenStmt st =>
                (st.consumeOptional .kElse).andThen fun hasElse st =>
                  if hasElse then
                    (statementP f st).andThen fun elseStmt st =>
                      .ok (.ifS cond thenStmt (some elseStmt)) st
                  else
                    .ok (.ifS cond thenStmt none) st

def whileStmtP (fuel : Nat) (st : PState) : Res ParseError PState Stmt :=
  match fuel with
  | 0 => .timeout
  | f + 1 =>
      (st.consumeExpect .kWhile).andThen fun _ st =>
        (st.consumeExpect .leftParen).andThen fun _ st =>
          (expressionP f st).andThen fun cond st =>
            (st.consumeExpect .rightParen).andThen fun _ st =>
              (statementP f st).andThen fun body st =>
                .ok (.whileS cond body) st

def forStmtP (fuel : Nat) (st : PState) : Res ParseError PState Stmt :=
  match fuel with
  | 0 => .timeout
  | f + 1 =>
      (st.consumeExpect .kFor).andThen fun _ st =>
        (st.consumeExpect .leftParen).andThen fun _ st =>
          (forInitP f st).andThen fun initOpt st =>
            (forCondP f st).andThen fun cond st =>
              (st.consumeExpect .semicolon).andThen fun _ st =>
                (forIncrP f st).andThen fun incrOpt st =>
                  (st.consumeExpect .rightParen).andThen fun _ st =>
                    (statementP f st).andThen fun body st =>
                      .ok (forAssemble initOpt cond incrOpt body) st

def forInitP (fuel : Nat) (st : PState) : Res ParseError PState (Option Stmt) :=
  match fuel with
  | 0 => .timeout
  | f + 1 =>
      match st.peekT with
      | none => .crash
      | some t =>
          if t.kind = .semicolon then
            (st.consumeT).andThen fun _ st => .ok none st
          else if t.kind = .kVar then
            (varDeclP f st).andThen fun s st => .ok (some s) st
          else
            (exprStmtP f st).andThen fun s st => .ok (some s) st

def forCondP (fuel : Nat) (st : PState) : Res ParseError PState Expr :=
  match fuel with
  | 0 => .timeout
  | f + 1 =>
      match st.peekT with
      | none => .crash
      | some t =>
          if t.kind = .semicolon then
            .ok (.literal (.bool true)) st
          else
            expressionP f st

def forIncrP (fuel : Nat) (st : PState) : Res ParseError PState (Option Expr) :=
  match fuel with
  | 0 => .timeout
  | f + 1 =>
      match st.peekT with
      | none => .crash
      | some t =>
          if t.kind = .rightParen then .ok none st
          else (expressionP f st).andThen fun e st => .ok (some e) st

def returnStmtP (fuel : Nat) (st : PState) : Res ParseError PState Stmt :=
  match fuel with
  | 0 => .timeout
  | f + 1 =>
      (st.consumeExpect .kReturn).andThen fun _ st =>
        (expressionP f st).andThen fun e st =>
          (st.consumeExpect .semicolon).andThen fun _ st =>
            .ok (.returnS e) st

def exprStmtP (fuel : Nat) (st : PState) : Res ParseError PState Stmt :=
  match fuel with
  | 0 => .timeout
  | f + 1 =>
      (expressionP f st).andThen fun e st =>
        (st.consumeExpect .semicolon).andThen fun _ st =>
          .ok (.exprStmt e) st

def expressionP (fuel : Nat) (st : PState) : Res ParseError PState Expr :=
  match fuel with
  | 0 => .timeout
  | f + 1 => assignmentP f st

def assignmentP (fuel : Nat) (st : PState) : Res ParseError PState Expr :=
  match fuel with
  | 0 => .timeout
  | f + 1 =>
      (orP f st).andThen fun e st =>
        (st.consumeOptional .equal).andThen fun tookEqual st =>
          if tookEqual then
            match e with
            | .variableE id nameTok =>
                (assignmentP f st).andThen fun rhs st =>
                  .ok (.assignment id nameTok rhs) st
            | _ =>
                match st.prevT 2 with
                | none => .crash
                | some tok => .err ⟨tok, .expected "identifier"⟩ st
          else
            .ok e st

def orP (fuel : Nat) (st : PState) : Res ParseError PState Expr :=
  match fuel with
  | 0 => .timeout
  | f + 1 =>
      (andP f st).andThen fun e st => orLoop f e st

def orLoop (fuel : Nat) (e : Expr) (st : PState) : Res ParseError PState Expr :=
  match fuel with
  | 0 => .timeout
  | f + 1 =>
      match st.peekT with
      | none => .crash
      | some t =>
          if t.kind = .kOr then
            (st.consumeT).andThen fun op st =>
              (andP f st).andThen fun right st =>
                orLoop f (.logical e op right) st
          else .ok e st

def andP (fuel : Nat) (st : PState) : Res ParseError PState Expr :=
  match fuel with
  | 0 => .timeout
  | f + 1 =>
      (equalityP f st).andThen fun e st => andLoop f e st

def andLoop (fuel : Nat) (e : Expr) (st : PState) : Res ParseError PState Expr :=
  match fuel with
  | 0 => .timeout
  | f + 1 =>
      match st.peekT with
      | none => .crash
      | some t =>
          if t.kind = .kAnd then
            (st.consumeT).andThen fun op st =>
              (equalityP f st).andThen fun right st =>
                andLoop f (.logical e op right) st
          else .ok e st

def equalityP (fuel : Nat) (st : PState) : Res ParseError PState Expr :=
  match fuel with
  | 0 => .timeout
  | f + 1 =>
      (comparisonP f st).andThen fun e st => equalityLoop f e st

def equalityLoop (fuel : Nat) (e : Expr) (st : PState) : Res ParseError PState Expr :=
  match fuel with
  | 0 => .timeout
  | f + 1 =>
      match st.peekT with
      | none => .crash
      | some t =>
          if t.kind = .equalEqual ∨ t.kind = .bangEqual then
            (st.consumeT).andThen fun op st =>
              (comparisonP f st).andThen fun right st =>
                equalityLoop f (.binary e op right) st
          else .ok e st

def comparisonP (fuel : Nat) (st : PState) : Res ParseError PState Expr :=
  match fuel with
  | 0 => .timeout
  | f + 1 =>
      (termP f st).andThen fun e st => comparisonLoop f e st

def comparisonLoop (fuel : Nat) (e : Expr) (st : PState) : Res ParseError PState Expr :=
  match fuel with
  | 0 => .timeout
  | f + 1 =>
      match st.peekT with
      | none => .crash
      | some t =>
          if t.kind = .greater ∨ t.kind = .greaterEqual ∨
             t.kind = .less ∨ t.kind = .lessEqual then
            (st.consumeT).andThen fun op st =>
              (termP f st).andThen fun right st =>
                comparisonLoop f (.binary e op right) st
          else .ok e st

def termP (fuel : Nat) (st : PState) : Res ParseError PState Expr :=
  match fuel with
  | 0 => .timeout
  | f + 1 =>
      (factorP f st).andThen fun e st => termLoop f e st

def termLoop (fuel : Nat) (e : Expr) (st : PState) : Res ParseError PState Expr :=
  match fuel with
  | 0 => .timeout
  | f + 1 =>
      match st.peekT with
      | none => .crash
      | some t =>
          if t.kind = .plus ∨ t.kind = .minus then
            (st.consumeT).andThen fun op st =>
              (factorP f st).andThen fun right st =>
                termLoop f (.binary e op right) st
          else .ok e st

def factorP (fuel : Nat) (st : PState) : Res ParseError PState Expr :=
  match fuel with
  | 0 => .timeout
  | f + 1 =>
      (unaryP f st).andThen fun e st => factorLoop f e st

def factorLoop (fuel : Nat) (e : Expr) (st : PState) : Res ParseError PState Expr :=
  match fuel with
  | 0 => .timeout
  | f + 1 =>
      match st.peekT with
      | none => .crash
      | some t =>
          if t.kind = .star ∨ t.kind = .slash then
            (st.consumeT).andThen fun op st =>
              (unaryP f st).andThen fun right st =>
                factorLoop f (.binary e op right) st
          else .ok e st

def unaryP (fuel : Nat) (st : PState) : Res ParseError PState Expr :=
  match fuel with
  | 0 => .timeout
  | f + 1 =>
      match st.peekT with
      | none => .crash
      | some t =>
          if t.kind = .bang ∨ t.kind = .minus then
            (st.consumeT).andThen fun op st =>
              (unaryP f st).andThen fun right st =>
                .ok (.unary op right) st
          else callP f st

def callP (fuel : Nat) (st : PState) : Res ParseError PState Expr :=
  match fuel with
  | 0 => .timeout
  | f + 1 =>
      (primaryP f st).andThen fun e st =>
        match st.peekT with
        | none => .crash
        | some t =>
            if t.kind = .leftParen then
              (st.consumeT).andThen fun _ st =>
                (argumentsP f st).andThen fun args st =>
                  (st.consumeExpect .rightParen).andThen fun tok st =>
                    .ok (.funCall e tok args) st
            else .ok e st

def argumentsP (fuel : Nat) (st : PState) : Res ParseError PState (List Expr) :=
  match fuel with
  | 0 => .timeout
  | f + 1 =>
      match st.peekT with
      | none => .crash
      | some t =>
          if t.kind = .rightParen then .ok [] st
          else argsLoop f st

def argsLoop (fuel : Nat) (st : PState) : Res ParseError PState (List Expr) :=
  match fuel with
  | 0 => .timeout
  | f + 1 =>
      (expressionP f st).andThen fun e st =>
        match st.peekT with
        | none => .crash
        | some t =>
            if t.kind = .rightParen then .ok [e] st
            else
              (st.consumeExpect .comma).andThen fun _ st =>
                (argsLoop f st).andThen fun rest st =>
                  .ok (e :: rest) st

def primaryP (fuel : Nat) (st : PState) : Res ParseError PState Expr :=
  match fuel with
  | 0 => .timeout
  | f + 1 =>
      match st.peekT with
      | none => .crash
      | some token =>
          match token.kind with
          | .number n =>
              (st.consumeT).andThen fun _ st => .ok (.literal (.number n)) st
          | .string s =>
              (st.consumeT).andThen fun _ st => .ok (.literal (.str s)) st
          | .kTrue =>
              (st.consumeT).andThen fun _ st => .ok (.literal (.bool true)) st
          | .kFalse =>
              (st.consumeT).andThen fun _ st => .ok (.literal (.bool false)) st
          | .kNil =>
              (st.consumeT).andThen fun _ st => .ok (.literal .nil) st
          | .identifier _ =>
              let (id, st) := st.incrVarId
              (st.consumeT).andThen fun _ st => .ok (.variableE id token) st
          | .leftParen =>
              (st.consumeT).andThen fun _ st =>
                (expressionP f st).andThen fun e st =>
                  (st.consumeExpect .rightParen).andThen fun _ st =>
                    .ok (.grouping e) st
          | _ => .err ⟨token, .expectedExpression⟩ st

end


/-! ## C4: the `for` desugaring -/

/-- The loop body of the desugared `for`, in the spec's words: with an
increment the body becomes `Block[body, ExprStmt(incr)]`; an omitted
increment leaves the body used directly. -/
def specForBody (body : Stmt) (incrOpt : Option Expr) : Stmt :=
  match incrOpt with
  | some incr => .block [body, .exprStmt incr]
  | none => body

/-- The desugared `for` tree as the claim words it, amended: the
enclosing `Block` is only produced when an initializer is present;
without one the `While` itself is the result. -/
def specForTree (initOpt : Option Stmt) (cond : Expr) (incrOpt : Option Expr)
    (body : Stmt) : Stmt :=
  if initOpt.isSome then
    .block (initOpt.toList ++ [.whileS cond (specForBody body incrOpt)])
  else
    .whileS cond (specForBody body incrOpt)

/-- The desugared `for` tree exactly as the claim words it (not
amended): always the enclosing `Block`, holding the optional
initializer and then the `While`. -/
def specForTreeClaim (initOpt : Option Stmt) (cond : Expr) (incrOpt : Option Expr)
    (body : Stmt) : Stmt :=
  .block (initOpt.toList ++ [.whileS cond (specForBody body incrOpt)])

theorem forAssemble_eq_specForTree (initOpt : Option Stmt) (cond : Expr)
    (incrOpt : Option Expr) (body : Stmt) :
    forAssemble initOpt cond incrOpt body = specForTree initOpt cond incrOpt body := by
  cases initOpt <;> cases incrOpt <;> rfl

/-- The token list of `for (;;) print nil;`. -/
def forCexToks : List Token :=
  [⟨1, 4, .kFor⟩, ⟨1, 6, .leftParen⟩, ⟨1, 7, .semicolon⟩, ⟨1, 8, .semicolon⟩,
   ⟨1, 9, .rightParen⟩, ⟨1, 15, .kPrint⟩, ⟨1, 19, .kNil⟩, ⟨1, 20, .semicolon⟩,
   ⟨1, 20, .eof⟩]

/-- C4 counterexample: parsing `for (;;) print nil;` succeeds and
produces the bare `While` statement — not the `Block{[init?, While]}`
tree the claim predicts for an omitted initializer. -/
theorem forStmt_counterexample :
    forStmtP 100 (PState.init forCexToks) =
      .ok (.whileS (.literal (.bool true)) (.printStmt (.literal .nil)))
        ⟨forCexToks, 8, [], 0⟩ ∧
    Stmt.whileS (.literal (.bool true)) (.printStmt (.literal .nil)) ≠
      specForTreeClaim none (.literal (.bool true)) none
        (.printStmt (.literal .nil)) := by
  constructor
  · rfl
  · intro h
    simp [specForTreeClaim, specForBody] at h

/-- C4 (amended): `for (init?; cond?; incr?) body` parses to exactly
`Block{[init, While{cond, body'}]}` when an initializer is present and
to the bare `While{cond, body'}` when it is omitted, where `body'` is
`Block{[body, ExprStmt(incr)]}` with an increment and `body` itself
without; an omitted condition becomes `Literal(Bool(true))`. -/
theorem forStmt_desugar :
    (∀ (f : Nat) (st : PState),
      forStmtP (f + 1) st =
        (st.consumeExpect .kFor).andThen fun _ st =>
          (st.consumeExpect .leftParen).andThen fun _ st =>
            (forInitP f st).andThen fun initOpt st =>
              (forCondP f st).andThen fun cond st =>
                (st.consumeExpect .semicolon).andThen fun _ st =>
                  (forIncrP f st).andThen fun incrOpt st =>
                    (st.consumeExpect .rightParen).andThen fun _ st =>
                      (statementP f st).andThen fun body st =>
                        .ok (specForTree initOpt cond incrOpt body) st) ∧
    (∀ (f : Nat) (st : PState) (t : Token),
      st.peekT = some t → t.kind = .semicolon →
      forCondP (f + 1) st = .ok (.literal (.bool true)) st) ∧
    (∀ (cond : Expr) (body : Stmt),
      specForTree none cond none body = .whileS cond body) := by
  refine ⟨?_, ?_, ?_⟩
  · intro f st
    simp only [forStmtP, forAssemble_eq_specForTree]
  · intro f st t hpeek hsemi
    unfold forCondP
    rw [hpeek]
    simp [hsemi]
  · intro cond body
    rfl

/-- Witness for `forStmt_desugar` at the state of `for (;;) print
nil;` just before the condition position. -/
theorem forStmt_desugar_witness :
    forCondP 100 ⟨forCexToks, 3, [], 0⟩ =
      .ok (.literal (.bool true)) ⟨forCexToks, 3, [], 0⟩ :=
  forStmt_desugar.2.1 99 ⟨forCexToks, 3, [], 0⟩ ⟨1, 8, .semicolon⟩ rfl rfl

/-! ## Runtime values: truthiness (src/parser/value.rs) -/

/-- `Value::is_truthy`. -/
def Value.isTruthy : Value → Bool
  | .bool b => b
  | .number n => n != 0
  | .str s => s.length > 0
  | .nil => false
  | .callable _ _ _ _ => true

/-- `Value::is_falsy`. -/
def Value.isFalsy (v : Value) : Bool :=
  !v.isTruthy

/-- C5: truthiness is a total deterministic function on values (it is a
Lean function over all of `Value`) satisfying exactly the spec's table,
with falsy its pointwise negation. -/
theorem isTruthy_table :
    (∀ b, (Value.bool b).isTruthy = b) ∧
    (Value.nil.isTruthy = false) ∧
    (∀ n : ℚ, (Value.number n).isTruthy = true ↔ n ≠ 0) ∧
    (∀ s : String, (Value.str s).isTruthy = true ↔ s ≠ "") ∧
    (∀ name params body env,
      (Value.callable name params body env).isTruthy = true) ∧
    (∀ v : Value, v.isFalsy = !v.isTruthy) := by
  refine ⟨fun b => rfl, rfl, ?_, ?_, fun _ _ _ _ => rfl, fun v => rfl⟩
  · intro n
    simp [Value.isTruthy, bne_iff_ne]
  · intro s
    constructor
    · intro h hs
      rw [hs] at h
      simp [Value.isTruthy] at h
    · intro h
      simp only [Value.isTruthy, decide_eq_true_eq]
      exact Nat.pos_of_ne_zero fun hlen =>
        h (String.ext (List.length_eq_zero.mp (by simpa using hlen)))

/-! ## Resolver (src/resolver/mod.rs, src/resolver/variable_state.rs) -/

/-- `ResolveError` from src/resolver/errors.rs. -/
inductive ResolveError where
  | unassignedVariable (tok : Token)
  | unusedVariable (tok : Token)
  | undeclaredVariable (tok : Token)
  | overshadowingSameBlock (tok : Token)
deriving Repr, DecidableEq

/-- `VariableState` from src/resolver/variable_state.rs. -/
structure VariableState where
  token : Token
  everAssigned : Bool
  everRead : Bool
deriving Repr, DecidableEq

/-- `VariableState::new`. -/
def VariableState.new (token : Token) : VariableState :=
  ⟨token, false, false⟩

/-- `VariableState::mark_assigned`. -/
def VariableState.markAssigned (vs : VariableState) : VariableState :=
  { vs with everAssigned := true }

/-- `VariableState::mark_read`. -/
def VariableState.markRead (vs : VariableState) : VariableState :=
  { vs with everRead := true }

/-- `VariableState::check`: never assigned dominates never read. -/
def VariableState.check (vs : VariableState) : Except ResolveError Unit :=
  if !vs.everAssigned then .error (.unassignedVariable vs.token)
  else if !vs.everRead then .error (.unusedVariable vs.token)
  else .ok ()

/-- The error a state's close check yields, if any. -/
def VariableState.checkErr (vs : VariableState) : Option ResolveError :=
  match vs.check with
  | .error e => some e
  | .ok _ => none

/-- One scope frame: a `HashMap<String, VariableState>` modelled as an
association list (declaration checks keep keys unique; `into_values`
iteration is modelled as list order, which in Rust is unspecified). -/
abbrev RScope : Type := List (String × VariableState)

/-- Lookup in a scope (`HashMap::get`). -/
def RScope.find (sc : RScope) (name : String) : Option VariableState :=
  (List.find? (fun p => p.1 = name) sc).map (·.2)

/-- In-place update of a name's state (`HashMap::get_mut`). -/
def RScope.adjust (sc : RScope) (name : String)
    (f : VariableState → VariableState) : RScope :=
  List.map (fun p => if p.1 = name then (p.1, f p.2) else p) sc

/-- The `Resolver` struct: scope stack (innermost last), id→depth
bindings, collected errors. -/
structure RState where
  scopes : List RScope
  bindings : List (Nat × Nat)
  errors : List ResolveError

/-- `Resolver::new`: one base scope. -/
def RState.init : RState :=
  ⟨[[]], [], []⟩

/-- `Resolver::begin_scope`. -/
def RState.beginScope (st : RState) : RState :=
  { st with scopes := st.scopes ++ [[]] }

/-- `Resolver::pop_last_scope` (panics on empty stack). -/
def RState.popLastScope (st : RState) : Option (RScope × RState) :=
  match st.scopes.getLast? with
  | some sc => some (sc, { st with scopes := st.scopes.dropLast })
  | none => none

/-- `Resolver::get_bound_depth` (panics on unresolved ids). -/
def RState.getBoundDepth (st : RState) (id : Nat) : Option Nat :=
  (List.find? (fun p => p.1 = id) st.bindings).map (·.2)

/-- `HashMap::insert` on the bindings map. -/
def insertBinding (l : List (Nat × Nat)) (id depth : Nat) : List (Nat × Nat) :=
  if (List.find? (fun p => p.1 = id) l).isSome then
    List.map (fun p => if p.1 = id then (p.1, depth) else p) l
  else
    l ++ [(id, depth)]

/-- The check loop of `Resolver::end_scope`: check each state in
turn, early-returning the first failure (the `?` inside the loop). -/
def checkLoop (st : RState) : List (String × VariableState) →
    Res ResolveError RState Unit
  | [] => .ok () st
  | (_, vs) :: rest =>
      match vs.check with
      | .error e => .err e st
      | .ok _ => checkLoop st rest

/-- `Resolver::end_scope`. -/
def RState.endScope (st : RState) : Res ResolveError RState Unit :=
  match st.popLastScope with
  | none => .crash
  | some (sc, st) => checkLoop st sc

/-- The collection loop of `Resolver::end_scope_extensive`: check
every state, pushing each failure. -/
def collectErrs : List (String × VariableState) → List ResolveError
  | [] => []
  | (_, vs) :: rest =>
      match vs.check with
      | .error e => e :: collectErrs rest
      | .ok _ => collectErrs rest

/-- `Resolver::end_scope_extensive`: pop, collect every failing check;
error only when at least one check failed. -/
def RState.endScopeExtensive (st : RState) :
    Res (List ResolveError) RState Unit :=
  match st.popLastScope with
  | none => .crash
  | some (sc, st) =>
      let errs := collectErrs sc
      if errs.length = 0 then .ok () st else .err errs st

/-- `Resolver::declare_optional_assigned`. -/
def RState.declareOptionalAssigned (st : RState) (tok : Token)
    (assigned : Bool) : Res ResolveError RState Unit :=
  match tok.extractIdentifier with
  | none => .crash
  | some name =>
      match st.scopes.getLast? with
      | none => .crash
      | some last =>
          match last.find name with
          | none =>
              let vs := if assigned then (VariableState.new tok).markAssigned
                        else VariableState.new tok
              .ok () { st with
                scopes := st.scopes.dropLast ++ [last ++ [(name, vs)]] }
          | some _ => .err (.overshadowingSameBlock tok) st

/-- `Resolver::declare`. -/
def RState.declareR (st : RState) (tok : Token) : Res ResolveError RState Unit :=
  st.declareOptionalAssigned tok false

/-- `Resolver::declare_assigned`. -/
def RState.declareAssigned (st : RState) (tok : Token) :
    Res ResolveError RState Unit :=
  st.declareOptionalAssigned tok true

/-- `Resolver::assign_curr_scope_non_binding` (panics when the name is
missing from the current scope). -/
def RState.assignCurrScopeNonBinding (st : RState) (tok : Token) :
    Res ResolveError RState Unit :=
  match tok.extractIdentifier with
  | none => .crash
  | some name =>
      match st.scopes.getLast? with
      | none => .crash
      | some last =>
          match last.find name with
          | none => .crash
          | some _ =>
              .ok () { st with
                scopes := st.scopes.dropLast ++
                  [last.adjust name VariableState.markAssigned] }

/-- The innermost→outermost walk of `bind_assign_or_access`, over the
reversed scope stack: returns the depth of the first scope containing
the name and the stack with that scope's entry updated. -/
def bindWalk (name : String) (mark : VariableState → VariableState) :
    List RScope → Option (Nat × List RScope)
  | [] => none
  | sc :: outer =>
      match sc.find name with
      | some _ => some (0, sc.adjust name mark :: outer)
      | none =>
          (bindWalk name mark outer).map fun p => (p.1 + 1, sc :: p.2)

/-- `Resolver::bind_assign_or_access`. -/
def RState.bindAssignOrAccess (st : RState) (id : Nat) (tok : Token)
    (shouldAssign : Bool) : Res ResolveError RState Unit :=
  match tok.extractIdentifier with
  | none => .crash
  | some name =>
      let mark := if shouldAssign then VariableState.markAssigned
                  else VariableState.markRead
      match bindWalk name mark st.scopes.reverse with
      | some (depth, scopesRev) =>
          .ok () { st with
            scopes := scopesRev.reverse,
            bindings := insertBinding st.bindings id depth }
      | none => .err (.undeclaredVariable tok) st

/-- `Resolver::bind_assign`. -/
def RState.bindAssign (st : RState) (id : Nat) (tok : Token) :
    Res ResolveError RState Unit :=
  st.bindAssignOrAccess id tok true

/-- `Resolver::bind_access`. -/
def RState.bindAccess (st : RState) (id : Nat) (tok : Token) :
    Res ResolveError RState Unit :=
  st.bindAssignOrAccess id tok false

/-- The parameter loop of `Resolver::resolve_fun_decl`. -/
def declareParamsR (params : List Token) (st : RState) :
    Res ResolveError RState Unit :=
  match params with
  | [] => .ok () st
  | p :: rest =>
      (st.declareAssigned p).andThen fun _ st =>
        declareParamsR rest st

mutual

/-- `Resolver::resolve_expr` (and the per-variant helpers it
dispatches to, inlined). -/
def resolveExpr (fuel : Nat) (e : Expr) (st : RState) :
    Res ResolveError RState Unit :=
  match fuel with
  | 0 => .timeout
  | f + 1 =>
      match e with
      | .unary _ right => resolveExpr f right st
      | .binary left _ right =>
          (resolveExpr f left st).andThen fun _ st =>
            resolveExpr f right st
      | .grouping inner => resolveExpr f inner st
      | .literal _ => .ok () st
      | .variableE id nameTok => st.bindAccess id nameTok
      | .assignment id nameTok expr =>
          (resolveExpr f expr st).andThen fun _ st =>
            st.bindAssign id nameTok
      | .logical left _ right =>
          (resolveExpr f left st).andThen fun _ st =>
            resolveExpr f right st
      | .funCall callee _ args =>
          (resolveExpr f callee st).andThen fun _ st =>
            resolveExprList f args st

/-- The argument loop of `Resolver::resolve_fun_call`. -/
def resolveExprList (fuel : Nat) (es : List Expr) (st : RState) :
    Res ResolveError RState Unit :=
  match fuel with
  | 0 => .timeout
  | f + 1 =>
      match es with
      | [] => .ok () st
      | e :: rest =>
          (resolveExpr f e st).andThen fun _ st =>
            resolveExprList f rest st

/-- `Resolver::resolve_stmt` (per-variant helpers inlined). -/
def resolveStmt (fuel : Nat) (s : Stmt) (st : RState) :
    Res ResolveError RState Unit :=
  match fuel with
  | 0 => .timeout
  | f + 1 =>
      match s with
      | .printStmt expr => resolveExpr f expr st
      | .exprStmt expr => resolveExpr f expr st
      | .varDecl nameTok exprOpt =>
          match exprOpt with
          | some expr =>
              (resolveExpr f expr st).andThen fun _ st =>
                (st.declareR nameTok).andThen fun _ st =>
                  st.assignCurrScopeNonBinding nameTok
          | none => st.declareR nameTok
      | .block stmts =>
          (resolveStmtList f stmts st.beginScope).andThen fun _ st =>
            st.endScope
      | .ifS condition thenStmt elseOpt =>
          (resolveExpr f condition st).andThen fun _ st =>
            (resolveStmt f thenStmt st).andThen fun _ st =>
              match elseOpt with
              | some elseStmt => resolveStmt f elseStmt st
              | none => .ok () st
      | .whileS condition body =>
          (resolveExpr f condition st).andThen fun _ st =>
            resolveStmt f body st
      | .funDecl name params body =>
          (st.declareAssigned name).andThen fun _ st =>
            (declareParamsR params st.beginScope).andThen fun _ st =>
              (resolveStmt f body st).andThen fun _ st =>
                st.endScope
      | .returnS expr => resolveExpr f expr st

/-- The statement loop of `Resolver::resolve_block_stmt` (errors
propagate immediately via `?`). -/
def resolveStmtList (fuel : Nat) (stmts : List Stmt) (st : RState) :
    Res ResolveError RState Unit :=
  match fuel with
  | 0 => .timeout
  | f + 1 =>
      match stmts with
      | [] => .ok () st
      | s :: rest =>
          (resolveStmt f s st).andThen fun _ st =>
            resolveStmtList f rest st

end

/-- The statement loop of `Resolver::resolve`: a failing statement
pushes its error and resolution continues with the next statement. -/
def resolveTopLoop (fuel : Nat) (stmts : List Stmt) (st : RState) :
    Res ResolveError RState Unit :=
  match stmts with
  | [] => .ok () st
  | s :: rest =>
      match resolveStmt fuel s st with
      | .ok _ st' => resolveTopLoop fuel rest st'
      | .err e st' =>
          resolveTopLoop fuel rest { st' with errors := st'.errors ++ [e] }
      | .crash => .crash
      | .timeout => .timeout

/-- `Resolver::resolve`: open the global frame, resolve every
top-level statement (collecting errors), close the global frame with
the extensive check, appending every close error. -/
def resolve (fuel : Nat) (stmts : List Stmt) (st : RState) :
    Res ResolveError RState Unit :=
  (resolveTopLoop fuel stmts st.beginScope).andThen fun _ st =>
    match st.endScopeExtensive with
    | .ok _ st' => .ok () st'
    | .err errs st' => .ok () { st' with errors := st'.errors ++ errs }
    | .crash => .crash
    | .timeout => .timeout

/-! ## C8: frame-close checks -/

/-- The early-exit check loop equals "first failing check wins". -/
theorem checkLoop_eq_findSome (st : RState) :
    ∀ sc : List (String × VariableState),
      checkLoop st sc =
        match sc.findSome? (fun p => p.2.checkErr) with
        | some e => .err e st
        | none => .ok () st := by
  intro sc
  induction sc with
  | nil => rfl
  | cons hd tl ih =>
      obtain ⟨n, vs⟩ := hd
      rw [checkLoop, List.findSome?_cons]
      cases hc : vs.check with
      | error e => simp [VariableState.checkErr, hc]
      | ok u => simp [VariableState.checkErr, hc, ih]

/-- The extensive close's loop collects exactly the failing checks. -/
theorem collectErrs_eq_filterMap (sc : List (String × VariableState)) :
    collectErrs sc = sc.filterMap fun p => p.2.checkErr := by
  induction sc with
  | nil => rfl
  | cons hd tl ih =>
      obtain ⟨n, vs⟩ := hd
      rw [collectErrs, List.filterMap_cons]
      cases hc : vs.check with
      | error e => simp [VariableState.checkErr, hc, ih]
      | ok u => simp [VariableState.checkErr, hc, ih]

/-- C8: a close checks each variable state with never-assigned
dominating never-read; the global frame's close (`end_scope_extensive`,
used by `resolve`) collects every failing check, while an inner frame's
close (`end_scope`, used for blocks and function bodies) surfaces only
the first (in the model's iteration order; Rust's `HashMap` iteration
order is unspecified). -/
theorem resolver_scope_close :
    (∀ tok r, VariableState.check ⟨tok, false, r⟩ =
        .error (.unassignedVariable tok)) ∧
    (∀ tok, VariableState.check ⟨tok, true, false⟩ =
        .error (.unusedVariable tok)) ∧
    (∀ tok, VariableState.check ⟨tok, true, true⟩ = .ok ()) ∧
    (∀ (st : RState) sc st', st.popLastScope = some (sc, st') →
      st.endScopeExtensive =
        (let errs := sc.filterMap fun p => p.2.checkErr
         if errs = [] then .ok () st' else .err errs st')) ∧
    (∀ (st : RState) sc st', st.popLastScope = some (sc, st') →
      st.endScope =
        match sc.findSome? (fun p => p.2.checkErr) with
        | some e => .err e st'
        | none => .ok () st') ∧
    (∀ (f : Nat) (stmts : List Stmt) (st : RState),
      resolveStmt (f + 1) (.block stmts) st =
        (resolveStmtList f stmts st.beginScope).andThen fun _ st =>
          st.endScope) ∧
    (∀ (fuel : Nat) (stmts : List Stmt) (st : RState),
      resolve fuel stmts st =
        (resolveTopLoop fuel stmts st.beginScope).andThen fun _ st =>
          match st.endScopeExtensive with
          | .ok _ st' => .ok () st'
          | .err errs st' => .ok () { st' with errors := st'.errors ++ errs }
          | .crash => .crash
          | .timeout => .timeout) := by
  refine ⟨fun tok r => rfl, fun tok => rfl, fun tok => rfl, ?_, ?_,
    fun f stmts st => rfl, fun fuel stmts st => rfl⟩
  · intro st sc st' hpop
    unfold RState.endScopeExtensive
    rw [hpop]
    have hce := collectErrs_eq_filterMap sc
    simp only [hce, List.length_eq_zero]
  · intro st sc st' hpop
    unfold RState.endScope
    rw [hpop]
    exact checkLoop_eq_findSome st' sc

/-- Witness for `resolver_scope_close` on a two-variable frame: the
extensive close reports both failures, the plain close only the
first. -/
theorem resolver_scope_close_witness :
    RState.endScopeExtensive
        ⟨[[("a", ⟨⟨1, 1, .identifier "a"⟩, false, false⟩),
           ("b", ⟨⟨1, 2, .identifier "b"⟩, true, false⟩)]], [], []⟩ =
      .err [.unassignedVariable ⟨1, 1, .identifier "a"⟩,
            .unusedVariable ⟨1, 2, .identifier "b"⟩] ⟨[], [], []⟩ ∧
    RState.endScope
        ⟨[[("a", ⟨⟨1, 1, .identifier "a"⟩, false, false⟩),
           ("b", ⟨⟨1, 2, .identifier "b"⟩, true, false⟩)]], [], []⟩ =
      .err (.unassignedVariable ⟨1, 1, .identifier "a"⟩) ⟨[], [], []⟩ := by
  constructor
  · rw [resolver_scope_close.2.2.2.1
      ⟨[[("a", ⟨⟨1, 1, .identifier "a"⟩, false, false⟩),
         ("b", ⟨⟨1, 2, .identifier "b"⟩, true, false⟩)]], [], []⟩
      [("a", ⟨⟨1, 1, .identifier "a"⟩, false, false⟩),
       ("b", ⟨⟨1, 2, .identifier "b"⟩, true, false⟩)] ⟨[], [], []⟩ rfl]
    rfl
  · rw [resolver_scope_close.2.2.2.2.1
      ⟨[[("a", ⟨⟨1, 1, .identifier "a"⟩, false, false⟩),
         ("b", ⟨⟨1, 2, .identifier "b"⟩, true, false⟩)]], [], []⟩
      [("a", ⟨⟨1, 1, .identifier "a"⟩, false, false⟩),
       ("b", ⟨⟨1, 2, .identifier "b"⟩, true, false⟩)] ⟨[], [], []⟩ rfl]
    rfl

/-! ## Evaluator (src/interpreter/mod.rs, environment.rs, callable/fun.rs) -/

/-- `RuntimeError` from src/interpreter/errors.rs. -/
inductive RuntimeError where
  | undefinedOpBetween (left : Value) (op : Token) (right : Value)
  | expectedNumber (op : Token)
  | callableBadArgsCount (paren : Token)
  | expectedCallable (paren : Token)

/-- One `Environment` (src/interpreter/environment.rs): a variables
map plus the never-reassigned `enclosing` pointer, an index into the
frame store. -/
structure Frame where
  vars : List (String × Value)
  enc : Option Nat

/-- The evaluator state: the store of every allocated frame (indices
are stable, frames are only appended), the current-environment index
(`Interpreter::environment`), the output sink, and the resolver
consulted for bound depths. -/
structure St where
  frames : List Frame
  cur : Nat
  out : List String
  resolver : RState

/-- A fresh interpreter over a resolver: one global frame. -/
def St.init (resolver : RState) : St :=
  ⟨[⟨[], none⟩], 0, [], resolver⟩

/-- `HashMap::insert` on a frame's variables. -/
def Frame.insertVar (fr : Frame) (name : String) (v : Value) : Frame :=
  if (List.find? (fun p => p.1 = name) fr.vars).isSome then
    { fr with vars := fr.vars.map fun p => if p.1 = name then (p.1, v) else p }
  else
    { fr with vars := fr.vars ++ [(name, v)] }

/-- `Interpreter::begin_scope`: allocate a frame enclosing the current
one and make it current. -/
def St.beginScope (st : St) : St :=
  { st with frames := st.frames ++ [⟨[], some st.cur⟩],
            cur := st.frames.length }

/-- `Interpreter::end_scope`: step back to the enclosing frame
(panics when there is none). -/
def St.endScopeO (st : St) : Option St :=
  match st.frames.get? st.cur with
  | some fr =>
      match fr.enc with
      | some e => some { st with cur := e }
      | none => none
  | none => none

/-- `Interpreter::swap_environment`. -/
def St.swapEnvironment (st : St) (other : Nat) : Nat × St :=
  (st.cur, { st with cur := other })

/-- `Interpreter::declare`: insert into the current frame. -/
def St.declare (st : St) (name : String) (v : Value) : St :=
  match st.frames.get? st.cur with
  | some fr =>
      { st with frames := st.frames.set st.cur (fr.insertVar name v) }
  | none => st

/-- `Environment::get_at_depth`: walk `depth` enclosing links from
frame `frameId`, then read the binding (`none` models the panics). -/
def lookupAtDepth (st : St) (depth : Nat) (frameId : Nat) (name : String) :
    Option Value :=
  match st.frames.get? frameId with
  | none => none
  | some fr =>
      match depth with
      | 0 => (List.find? (fun p => p.1 = name) fr.vars).map (·.2)
      | d + 1 =>
          match fr.enc with
          | some e => lookupAtDepth st d e name
          | none => none

/-- `Environment::assign_at_depth` (`none` models the panics). -/
def assignAtDepth (st : St) (depth : Nat) (frameId : Nat) (name : String)
    (v : Value) : Option St :=
  match st.frames.get? frameId with
  | none => none
  | some fr =>
      match depth with
      | 0 =>
          match List.find? (fun p => p.1 = name) fr.vars with
          | some _ =>
              let fr2 := { fr with vars := fr.vars.map fun p =>
                if p.1 = name then (p.1, v) else p }
              some { st with frames := st.frames.set frameId fr2 }
          | none => none
      | d + 1 =>
          match fr.enc with
          | some e => assignAtDepth st d e name v
          | none => none

/-- `Interpreter::get`: bound depth from the resolver, then
`get_at_depth` from the current environment. -/
def St.getVar (st : St) (id : Nat) (name : String) : Option Value :=
  (st.resolver.getBoundDepth id).bind fun depth =>
    lookupAtDepth st depth st.cur name

/-- `Interpreter::assign`. -/
def St.assignVar (st : St) (id : Nat) (name : String) (v : Value) : Option St :=
  (st.resolver.getBoundDepth id).bind fun depth =>
    assignAtDepth st depth st.cur name v

/-- The `Display` implementation for `Value` (src/parser/value.rs);
`none` models the panic of `LoxCallable::name` on a non-identifier
name token.  Number formatting is modelled as the canonical rational
rendering. -/
def formatValue : Value → Option String
  | .number n => some (toString n)
  | .str s => some s
  | .bool b => some (if b then "true" else "false")
  | .nil => some "nil"
  | .callable name _ _ _ =>
      (name.extractIdentifier).map fun s => "<callable " ++ s ++ ">"

/-- The result dispatch of `Interpreter::eval_unary_expr`, applied to
the already-evaluated operand. -/
def unaryOpResult (op : Token) (v : Value) (st : St) : Res RuntimeError St Value :=
  match op.kind with
  | .minus =>
      match v with
      | .number n => .ok (.number (-n)) st
      | _ => .err (.expectedNumber op) st
  | .bang => .ok (.bool v.isFalsy) st
  | _ => .crash

/-- The operator table of `Interpreter::eval_binary_expr`, applied to
already-evaluated operands. -/
def binaryOpResult (leftVal : Value) (op : Token) (rightVal : Value) (st : St) :
    Res RuntimeError St Value :=
  match op.kind with
  | .star =>
      match leftVal, rightVal with
      | .number a, .number b => .ok (.number (a * b)) st
      | _, _ => .err (.undefinedOpBetween leftVal op rightVal) st
  | .slash =>
      match leftVal, rightVal with
      | .number a, .number b => .ok (.number (a / b)) st
      | _, _ => .err (.undefinedOpBetween leftVal op rightVal) st
  | .plus =>
      match leftVal, rightVal with
      | .number a, .number b => .ok (.number (a + b)) st
      | .str a, .str b => .ok (.str (a ++ b)) st
      | _, _ => .err (.undefinedOpBetween leftVal op rightVal) st
  | .minus =>
      match leftVal, rightVal with
      | .number a, .number b => .ok (.number (a - b)) st
      | _, _ => .err (.undefinedOpBetween leftVal op rightVal) st
  | .greater =>
      match leftVal, rightVal with
      | .number a, .number b => .ok (.bool (decide (a > b))) st
      | .str a, .str b => .ok (.bool (decide (b < a))) st
      | _, _ => .err (.undefinedOpBetween leftVal op rightVal) st
  | .greaterEqual =>
      match leftVal, rightVal with
      | .number a, .number b => .ok (.bool (decide (a ≥ b))) st
      | .str a, .str b => .ok (.bool (!decide (a < b))) st
      | _, _ => .err (.undefinedOpBetween leftVal op rightVal) st
  | .less =>
      match leftVal, rightVal with
      | .number a, .number b => .ok (.bool (decide (a < b))) st
      | .str a, .str b => .ok (.bool (decide (a < b))) st
      | _, _ => .err (.undefinedOpBetween leftVal op rightVal) st
  | .lessEqual =>
      match leftVal, rightVal with
      | .number a, .number b => .ok (.bool (decide (a ≤ b))) st
      | .str a, .str b => .ok (.bool (!decide (b < a))) st
      | _, _ => .err (.undefinedOpBetween leftVal op rightVal) st
  | .equalEqual =>
      match leftVal, rightVal with
      | .number a, .number b => .ok (.bool (a == b)) st
      | .str a, .str b => .ok (.bool (a == b)) st
      | .bool a, .bool b => .ok (.bool (a == b)) st
      | .nil, .nil => .ok (.bool true) st
      | _, _ => .ok (.bool false) st
  | .bangEqual =>
      match leftVal, rightVal with
      | .number a, .number b => .ok (.bool (a != b)) st
      | .str a, .str b => .ok (.bool (a != b)) st
      | .bool a, .bool b => .ok (.bool (a != b)) st
      | .nil, .nil => .ok (.bool false) st
      | _, _ => .ok (.bool true) st
  | _ => .crash

/-- The parameter-declaring loop of `LoxFunction::declare_params`:
iterate over the arguments, fetching the parameter token at each index
(`none` models the `unwrap`/`extract_identifier` panics). -/
def declareParams : List Token → List Value → St → Option St
  | _, [], st => some st
  | [], _ :: _, _ => none
  | p :: ps, v :: vs, st =>
      match p.extractIdentifier with
      | none => none
      | some name => declareParams ps vs (st.declare name v)

mutual

/-- `Interpreter::eval_expr` with the per-variant helpers
(`eval_unary_expr`, `eval_binary_expr`, `eval_variable`,
`eval_assignment`, `eval_logical_expr`, `eval_fun_call`) inlined. -/
def evalExpr (fuel : Nat) (e : Expr) (st : St) : Res RuntimeError St Value :=
  match fuel with
  | 0 => .timeout
  | f + 1 =>
      match e with
      | .unary op right =>
          (evalExpr f right st).andThen fun v st =>
            unaryOpResult op v st
      | .binary left op right =>
          (evalExpr f left st).andThen fun leftVal st =>
            (evalExpr f right st).andThen fun rightVal st =>
              binaryOpResult leftVal op rightVal st
      | .grouping inner => evalExpr f inner st
      | .literal v => .ok v st
      | .variableE id nameTok =>
          match nameTok.extractIdentifier with
          | none => .crash
          | some name =>
              match st.getVar id name with
              | some v => .ok v st
              | none => .crash
      | .assignment id nameTok expr =>
          (evalExpr f expr st).andThen fun v st =>
            match nameTok.extractIdentifier with
            | none => .crash
            | some name =>
                match st.assignVar id name v with
                | some st => .ok v st
                | none => .crash
      | .logical left op right =>
          match op.kind with
          | .kOr =>
              (evalExpr f left st).andThen fun leftVal st =>
                if leftVal.isTruthy then .ok (.bool true) st
                else
                  (evalExpr f right st).andThen fun rightVal st =>
                    .ok (.bool rightVal.isTruthy) st
          | .kAnd =>
              (evalExpr f left st).andThen fun leftVal st =>
                if leftVal.isFalsy then .ok (.bool false) st
                else
                  (evalExpr f right st).andThen fun rightVal st =>
                    .ok (.bool rightVal.isTruthy) st
          | _ => .crash
      | .funCall callee paren args =>
          (evalExpr f callee st).andThen fun v st =>
            match v with
            | .callable name params body env =>
                if params.length ≠ args.length then
                  .err (.callableBadArgsCount paren) st
                else
                  (evalArgs f args st).andThen fun argVals st =>
                    callFun f name params body env argVals st
            | _ => .err (.expectedCallable paren) st

/-- The left-to-right argument evaluation of `eval_fun_call` (the
`map`/`collect` over argument expressions, short-circuiting on the
first error). -/
def evalArgs (fuel : Nat) (args : List Expr) (st : St) :
    Res RuntimeError St (List Value) :=
  match fuel with
  | 0 => .timeout
  | f + 1 =>
      match args with
      | [] => .ok [] st
      | a :: rest =>
          (evalExpr f a st).andThen fun v st =>
            (evalArgs f rest st).andThen fun vs st =>
              .ok (v :: vs) st

/-- `LoxFunction::call`: assert the arity, swap in the captured
environment, open the parameter frame, declare the parameters, run the
body, convert the control signal to the call's value, close the frame
and restore the caller's environment.  A runtime error from the body
propagates without the close or the restore (the `?` on
`eval_stmt`). -/
def callFun (fuel : Nat) (name : Token) (params : List Token) (body : Stmt)
    (env : Nat) (args : List Value) (st : St) : Res RuntimeError St Value :=
  match fuel with
  | 0 => .timeout
  | f + 1 =>
      if params.length ≠ args.length then .crash
      else
        let (old, st) := st.swapEnvironment env
        match declareParams params args st.beginScope with
        | none => .crash
        | some st =>
            (evalStmt f body st).andThen fun sig st =>
              let value := match sig with
                | .ret v => v
                | .noneSig => Value.nil
              match st.endScopeO with
              | none => .crash
              | some st => .ok value (st.swapEnvironment old).2

/-- `Interpreter::eval_stmt` with the per-variant helpers
(`eval_print_stmt`, `eval_expr_stmt`, `eval_var_decl`, `eval_if_stmt`,
`eval_fun_decl`, `eval_return_stmt`) inlined; blocks and `while` loops
are the separate functions below. -/
def evalStmt (fuel : Nat) (s : Stmt) (st : St) : Res RuntimeError St ControlSignal :=
  match fuel with
  | 0 => .timeout
  | f + 1 =>
      match s with
      | .printStmt expr =>
          (evalExpr f expr st).andThen fun v st =>
            match formatValue v with
            | none => .crash
            | some line => .ok .noneSig { st with out := st.out ++ [line] }
      | .exprStmt expr =>
          (evalExpr f expr st).andThen fun _ st => .ok .noneSig st
      | .varDecl nameTok exprOpt =>
          (match exprOpt with
           | some e => evalExpr f e st
           | none => .ok Value.nil st).andThen fun v st =>
            match nameTok.extractIdentifier with
            | none => .crash
            | some name => .ok .noneSig (st.declare name v)
      | .block stmts => evalBlock f stmts st
      | .ifS condition thenStmt elseOpt =>
          (evalExpr f condition st).andThen fun v st =>
            if v.isTruthy then evalStmt f thenStmt st
            else
              match elseOpt with
              | some elseStmt => evalStmt f elseStmt st
              | none => .ok .noneSig st
      | .whileS condition body => evalWhile f condition body st
      | .funDecl name params body =>
          match name.extractIdentifier with
          | none => .crash
          | some nm =>
              .ok .noneSig (st.declare nm (.callable name params body st.cur))
      | .returnS expr =>
          (evalExpr f expr st).andThen fun v st => .ok (.ret v) st

/-- `Interpreter::eval_block`: open a frame, run the statements (the
loop below), close the frame and forward the signal.  A runtime error
propagates without the close (the `?` inside the loop). -/
def evalBlock (fuel : Nat) (stmts : List Stmt) (st : St) :
    Res RuntimeError St ControlSignal :=
  match fuel with
  | 0 => .timeout
  | f + 1 =>
      (evalStmtList f stmts st.beginScope).andThen fun sig st =>
        match st.endScopeO with
        | none => .crash
        | some st => .ok sig st

/-- The statement loop of `eval_block`: run statements in order,
stopping at the first non-`None` signal (which is returned) or error
(which propagates). -/
def evalStmtList (fuel : Nat) (stmts : List Stmt) (st : St) :
    Res RuntimeError St ControlSignal :=
  match fuel with
  | 0 => .timeout
  | f + 1 =>
      match stmts with
      | [] => .ok .noneSig st
      | s :: rest =>
          (evalStmt f s st).andThen fun sig st =>
            match sig with
            | .noneSig => evalStmtList f rest st
            | _ => .ok sig st

/-- `Interpreter::eval_while_stmt`: test, run the body discarding its
control signal, repeat; yield `None` when the condition is falsy. -/
def evalWhile (fuel : Nat) (condition : Expr) (body : Stmt) (st : St) :
    Res RuntimeError St ControlSignal :=
  match fuel with
  | 0 => .timeout
  | f + 1 =>
      (evalExpr f condition st).andThen fun v st =>
        if v.isTruthy then
          (evalStmt f body st).andThen fun _ st =>
            evalWhile f condition body st
        else .ok .noneSig st

end

/-- `Interpreter::interpret`: run each top-level statement in order,
discarding its control signal; stop at the first runtime error. -/
def interpret (fuel : Nat) (stmts : List Stmt) (st : St) :
    Res RuntimeError St Unit :=
  match stmts with
  | [] => .ok () st
  | s :: rest =>
      (evalStmt fuel s st).andThen fun _ st => interpret fuel rest st

/-! ## Environment-shape preservation (towards C1) -/

/-- The enclosing pointer stored at frame index `i` (`none` when the
index is unallocated). -/
def encAt (st : St) (i : Nat) : Option (Option Nat) :=
  (st.frames.get? i).map Frame.enc

/-- What every successfully-completing evaluation step preserves about
the environment: the current-environment pointer, the store indices
already allocated, and every already-allocated frame's enclosing
pointer (frames are only appended and `enclosing` is never mutated). -/
def Pres (st st' : St) : Prop :=
  st'.cur = st.cur ∧ st.frames.length ≤ st'.frames.length ∧
    ∀ i, i < st.frames.length → encAt st' i = encAt st i

theorem Pres_refl (st : St) : Pres st st :=
  ⟨rfl, Nat.le_refl _, fun _ _ => rfl⟩

theorem Pres_trans {s1 s2 s3 : St} (h1 : Pres s1 s2) (h2 : Pres s2 s3) :
    Pres s1 s3 :=
  ⟨h2.1.trans h1.1, h1.2.1.trans h2.2.1,
    fun i hi => (h2.2.2 i (Nat.lt_of_lt_of_le hi h1.2.1)).trans (h1.2.2 i hi)⟩

theorem encAt_set_of_same_enc (st : St) (j : Nat) (fr fr2 : Frame)
    (hj : st.frames.get? j = some fr) (henc : fr2.enc = fr.enc) :
    ∀ i, encAt { st with frames := st.frames.set j fr2 } i = encAt st i := by
  intro i
  unfold encAt
  show Option.map Frame.enc ((st.frames.set j fr2).get? i) = _
  by_cases hij : i = j
  · subst hij
    rw [List.get?_set_eq_of_lt, hj]
    · simp [henc]
    · exact (List.get?_eq_some.mp hj).1
  · simp only [List.get?_eq_getElem?]
    rw [List.getElem?_set_ne (fun h => hij h.symm)]

/-- `declare` only touches the variables of the current frame. -/
theorem Pres_declare (st : St) (name : String) (v : Value) :
    Pres st (st.declare name v) ∧
    (st.declare name v).frames.length = st.frames.length ∧
    (st.declare name v).cur = st.cur := by
  unfold St.declare
  cases hg : st.frames.get? st.cur with
  | none => exact ⟨Pres_refl st, rfl, rfl⟩
  | some fr =>
      refine ⟨⟨rfl, ?_, ?_⟩, ?_, rfl⟩
      · simp
      · intro i hi
        exact encAt_set_of_same_enc st st.cur fr _ hg
          (by unfold Frame.insertVar; split <;> rfl) i
      · simp

/-- `assign_at_depth` only touches the variables of the frame it
lands on. -/
theorem Pres_assignAtDepth :
    ∀ (d : Nat) (st : St) (fid : Nat) (name : String) (v : Value) (st' : St),
      assignAtDepth st d fid name v = some st' →
      Pres st st' ∧ st'.frames.length = st.frames.length ∧ st'.cur = st.cur := by
  intro d
  induction d with
  | zero =>
      intro st fid name v st' h
      unfold assignAtDepth at h
      cases hg : st.frames.get? fid with
      | none => rw [hg] at h; cases h
      | some fr =>
          rw [hg] at h
          simp only [] at h
          cases hf : List.find? (fun p => p.1 = name) fr.vars with
          | none => rw [hf] at h; cases h
          | some q =>
              rw [hf] at h
              cases h
              refine ⟨⟨rfl, by simp, ?_⟩, by simp, rfl⟩
              intro i hi
              exact encAt_set_of_same_enc st fid fr
                { fr with vars := fr.vars.map fun p =>
                    if p.1 = name then (p.1, v) else p } hg rfl i
  | succ d ih =>
      intro st fid name v st' h
      unfold assignAtDepth at h
      cases hg : st.frames.get? fid with
      | none => rw [hg] at h; cases h
      | some fr =>
          rw [hg] at h
          simp only [] at h
          cases he : fr.enc with
          | none => rw [he] at h; cases h
          | some e =>
              rw [he] at h
              exact ih st e name v st' h

/-- Facts about `begin_scope`: the fresh frame's index, its enclosing
pointer, and the preservation of older frames. -/
theorem beginScope_facts (st : St) :
    (st.beginScope).cur = st.frames.length ∧
    (st.beginScope).frames.length = st.frames.length + 1 ∧
    encAt st.beginScope st.frames.length = some (some st.cur) ∧
    ∀ i, i < st.frames.length → encAt st.beginScope i = encAt st i := by
  refine ⟨rfl, by simp [St.beginScope], ?_, ?_⟩
  · unfold encAt St.beginScope
    simp
  · intro i hi
    unfold encAt St.beginScope
    simp only [List.get?_eq_getElem?]
    rw [List.getElem?_append_left hi]

/-- Inversion of a successful `end_scope`: the frames are untouched
and the new current frame is the old one's enclosing pointer. -/
theorem endScopeO_inv {st st' : St} (h : st.endScopeO = some st') :
    st'.frames = st.frames ∧ st'.out = st.out ∧ st'.resolver = st.resolver ∧
    encAt st st.cur = some (some st'.cur) := by
  unfold St.endScopeO at h
  split at h
  · rename_i fr hg
    split at h
    · rename_i e henc
      cases h
      refine ⟨rfl, rfl, rfl, ?_⟩
      unfold encAt
      rw [hg]
      simp [henc]
    · cases h
  · cases h

/-- `declare_params` is a sequence of `declare`s. -/
theorem Pres_declareParams :
    ∀ (params : List Token) (args : List Value) (st st' : St),
      declareParams params args st = some st' →
      Pres st st' ∧ st'.frames.length = st.frames.length ∧ st'.cur = st.cur := by
  intro params
  induction params with
  | nil =>
      intro args st st' h
      cases args with
      | nil => cases h; exact ⟨Pres_refl _, rfl, rfl⟩
      | cons a rest => cases h
  | cons p ps ih =>
      intro args st st' h
      cases args with
      | nil => cases h; exact ⟨Pres_refl _, rfl, rfl⟩
      | cons v vs =>
          unfold declareParams at h
          cases hn : p.extractIdentifier with
          | none => rw [hn] at h; cases h
          | some name =>
              rw [hn] at h
              obtain ⟨hp, hlen, hcur⟩ := ih vs (st.declare name v) st' h
              obtain ⟨hp0, hlen0, hcur0⟩ := Pres_declare st name v
              exact ⟨Pres_trans hp0 hp, by rw [hlen, hlen0], by rw [hcur, hcur0]⟩

/-- Unary dispatch never touches the state. -/
theorem unaryOpResult_ok {op : Token} {v : Value} {st : St} {r : Value}
    {st' : St} (h : unaryOpResult op v st = .ok r st') : st' = st := by
  unfold unaryOpResult at h
  split at h
  · split at h <;> cases h <;> rfl
  · cases h; rfl
  · cases h

/-- The binary operator table never touches the state. -/
theorem binaryOpResult_ok {leftVal : Value} {op : Token} {rightVal : Value}
    {st : St} {r : Value} {st' : St}
    (h : binaryOpResult leftVal op rightVal st = .ok r st') : st' = st := by
  unfold binaryOpResult at h
  split at h <;> (try split at h) <;> (try cases h) <;> rfl

/-- Changing only the output sink preserves the environment. -/
theorem Pres_out (st : St) (o : List String) :
    Pres st { st with out := o } :=
  ⟨rfl, Nat.le_refl _, fun _ _ => rfl⟩

/-- Every successfully-completing evaluation step preserves the
current environment pointer, extends the frame store, and leaves every
older frame's enclosing pointer intact.  Proved by one induction on
fuel across the whole mutual evaluator. -/
theorem evalPreserve : ∀ fuel : Nat,
    (∀ e st v st', evalExpr fuel e st = .ok v st' → Pres st st') ∧
    (∀ es st vs st', evalArgs fuel es st = .ok vs st' → Pres st st') ∧
    (∀ nm ps b env args st v st',
      callFun fuel nm ps b env args st = .ok v st' → Pres st st') ∧
    (∀ s st sig st', evalStmt fuel s st = .ok sig st' → Pres st st') ∧
    (∀ stmts st sig st', evalBlock fuel stmts st = .ok sig st' → Pres st st') ∧
    (∀ stmts st sig st',
      evalStmtList fuel stmts st = .ok sig st' → Pres st st') ∧
    (∀ c b st sig st', evalWhile fuel c b st = .ok sig st' → Pres st st') := by
  intro fuel
  induction fuel with
  | zero =>
      refine ⟨?_, ?_, ?_, ?_, ?_, ?_, ?_⟩ <;> (intros; rename_i h; cases h)
  | succ f ih =>
      obtain ⟨ihE, ihA, ihC, ihS, ihB, ihL, ihW⟩ := ih
      refine ⟨?_, ?_, ?_, ?_, ?_, ?_, ?_⟩
      -- evalExpr
      · intro e st v st' h
        rw [evalExpr.eq_def] at h
        simp only [] at h
        cases e <;> try dsimp only at h
        case unary op right =>
            obtain ⟨v1, st1, h1, h2⟩ := Res.andThen_eq_ok h
            exact Pres_trans (ihE _ _ _ _ h1) (unaryOpResult_ok h2 ▸ Pres_refl st1)
        case binary left op right =>
            obtain ⟨v1, st1, h1, h2⟩ := Res.andThen_eq_ok h
            obtain ⟨v2, st2, h3, h4⟩ := Res.andThen_eq_ok h2
            exact Pres_trans (Pres_trans (ihE _ _ _ _ h1) (ihE _ _ _ _ h3))
              (binaryOpResult_ok h4 ▸ Pres_refl st2)
        case grouping inner => exact ihE _ _ _ _ h
        case literal lv => cases h; exact Pres_refl st
        case variableE id nameTok =>
            cases hn : nameTok.extractIdentifier with
            | none => rw [hn] at h; cases h
            | some name =>
                rw [hn] at h
                simp only [] at h
                cases hv : st.getVar id name with
                | none => rw [hv] at h; cases h
                | some v2 => rw [hv] at h; cases h; exact Pres_refl st
        case assignment id nameTok expr =>
            obtain ⟨v1, st1, h1, h2⟩ := Res.andThen_eq_ok h
            try dsimp only at h2
            cases hn : nameTok.extractIdentifier with
            | none => rw [hn] at h2; cases h2
            | some name =>
                rw [hn] at h2
                try simp only [] at h2
                cases ha : st1.assignVar id name v1 with
                | none => rw [ha] at h2; cases h2
                | some st2 =>
                    rw [ha] at h2
                    cases h2
                    unfold St.assignVar at ha
                    cases hd : st1.resolver.getBoundDepth id with
                    | none => rw [hd] at ha; cases ha
                    | some depth =>
                        rw [hd] at ha
                        try simp only [Option.bind_some] at ha
                        exact Pres_trans (ihE _ _ _ _ h1)
                          (Pres_assignAtDepth depth st1 st1.cur name _ _ ha).1
        case logical left op right =>
            cases hop : op.kind <;> rw [hop] at h <;> try cases h
            case kOr =>
                obtain ⟨v1, st1, h1, h2⟩ := Res.andThen_eq_ok h
                split at h2
                · cases h2; exact ihE _ _ _ _ h1
                · obtain ⟨v2, st2, h3, h4⟩ := Res.andThen_eq_ok h2
                  cases h4
                  exact Pres_trans (ihE _ _ _ _ h1) (ihE _ _ _ _ h3)
            case kAnd =>
                obtain ⟨v1, st1, h1, h2⟩ := Res.andThen_eq_ok h
                split at h2
                · cases h2; exact ihE _ _ _ _ h1
                · obtain ⟨v2, st2, h3, h4⟩ := Res.andThen_eq_ok h2
                  cases h4
                  exact Pres_trans (ihE _ _ _ _ h1) (ihE _ _ _ _ h3)
        case funCall callee paren args =>
            obtain ⟨v1, st1, h1, h2⟩ := Res.andThen_eq_ok h
            have p1 := ihE _ _ _ _ h1
            cases v1 <;> try dsimp only at h2
            case callable nm ps b env =>
                split at h2
                · cases h2
                · obtain ⟨argVals, st2, h3, h4⟩ := Res.andThen_eq_ok h2
                  exact Pres_trans (Pres_trans p1 (ihA _ _ _ _ h3)) (ihC _ _ _ _ _ _ _ _ h4)
            case number n => cases h2
            case str s => cases h2
            case bool b => cases h2
            case nil => cases h2
      -- evalArgs
      · intro es st vs st' h
        rw [evalArgs.eq_def] at h
        simp only [] at h
        cases es <;> try dsimp only at h
        case nil => cases h; exact Pres_refl st
        case cons a rest =>
            obtain ⟨v1, st1, h1, h2⟩ := Res.andThen_eq_ok h
            obtain ⟨vs2, st2, h3, h4⟩ := Res.andThen_eq_ok h2
            cases h4
            exact Pres_trans (ihE _ _ _ _ h1) (ihA _ _ _ _ h3)
      -- callFun
      · intro nm ps b env args st v st' h
        rw [callFun.eq_def] at h
        simp only [St.swapEnvironment] at h
        split at h
        · cases h
        · cases hdp : declareParams ps args
              (({ st with cur := env } : St).beginScope) with
          | none =>
              rw [hdp] at h; cases h
          | some st2 =>
              rw [hdp] at h
              obtain ⟨sig, st3, h1, h2⟩ := Res.andThen_eq_ok h
              try dsimp only at h2
              cases hes : st3.endScopeO with
              | none => rw [hes] at h2; cases h2
              | some st4 =>
                  rw [hes] at h2
                  cases h2
                  obtain ⟨pdp, hdpl, hdpc⟩ :=
                    Pres_declareParams ps args _ st2 hdp
                  have p3 := ihS _ _ _ _ h1
                  obtain ⟨hfr4, _, _, _⟩ := endScopeO_inv hes
                  have hb1 : ({ st with cur := env } : St).beginScope.frames.length
                      = st.frames.length + 1 := by
                    simp [St.beginScope]
                  refine ⟨rfl, ?_, ?_⟩
                  · calc st.frames.length
                        ≤ st.frames.length + 1 := Nat.le_succ _
                      _ = st2.frames.length := by rw [hdpl, hb1]
                      _ ≤ st3.frames.length := p3.2.1
                      _ = st4.frames.length := by rw [hfr4]
                  · intro i hi
                    have hb := beginScope_facts ({ st with cur := env } : St)
                    have e1 : encAt st4 i = encAt st3 i := by
                      unfold encAt; rw [hfr4]
                    have e2 : encAt st3 i = encAt st2 i :=
                      p3.2.2 i (by omega)
                    have e3 : encAt st2 i =
                        encAt (({ st with cur := env } : St).beginScope) i :=
                      pdp.2.2 i (by omega)
                    have e4 : encAt (({ st with cur := env } : St).beginScope) i
                        = encAt ({ st with cur := env } : St) i :=
                      hb.2.2.2 i hi
                    have e5 : encAt ({ st with cur := env } : St) i = encAt st i := rfl
                    have : encAt st4 i = encAt st i := by
                      rw [e1, e2, e3, e4, e5]
                    exact this
      -- evalStmt
      · intro s st sig st' h
        rw [evalStmt.eq_def] at h
        simp only [] at h
        cases s <;> try dsimp only at h
        case printStmt expr =>
            obtain ⟨v1, st1, h1, h2⟩ := Res.andThen_eq_ok h
            try dsimp only at h2
            cases hf : formatValue v1 with
            | none => rw [hf] at h2; cases h2
            | some line =>
                rw [hf] at h2
                simp only [] at h2
                cases h2
                exact Pres_trans (ihE _ _ _ _ h1) (Pres_out st1 _)
        case exprStmt expr =>
            obtain ⟨v1, st1, h1, h2⟩ := Res.andThen_eq_ok h
            cases h2
            exact ihE _ _ _ _ h1
        case varDecl nameTok exprOpt =>
            obtain ⟨v1, st1, h1, h2⟩ := Res.andThen_eq_ok h
            try dsimp only at h2
            cases hn : nameTok.extractIdentifier with
            | none => rw [hn] at h2; cases h2
            | some name =>
                rw [hn] at h2
                simp only [] at h2
                cases h2
                have p2 := (Pres_declare st1 name v1).1
                cases exprOpt with
                | some e => exact Pres_trans (ihE _ _ _ _ h1) p2
                | none => cases h1; exact p2
        case block stmts => exact ihB _ _ _ _ h
        case ifS condition thenStmt elseOpt =>
            obtain ⟨v1, st1, h1, h2⟩ := Res.andThen_eq_ok h
            have p1 := ihE _ _ _ _ h1
            split at h2
            · exact Pres_trans p1 (ihS _ _ _ _ h2)
            · cases elseOpt with
              | some elseStmt => exact Pres_trans p1 (ihS _ _ _ _ h2)
              | none => cases h2; exact p1
        case whileS condition body => exact ihW _ _ _ _ _ h
        case funDecl name params body =>
            cases hn : name.extractIdentifier with
            | none => rw [hn] at h; cases h
            | some nm2 =>
                rw [hn] at h
                simp only [] at h
                cases h
                exact (Pres_declare st nm2 _).1
        case returnS expr =>
            obtain ⟨v1, st1, h1, h2⟩ := Res.andThen_eq_ok h
            cases h2
            exact ihE _ _ _ _ h1
      -- evalBlock
      · intro stmts st sig st' h
        rw [evalBlock.eq_def] at h
        simp only [] at h
        obtain ⟨sig1, st2, h1, h2⟩ := Res.andThen_eq_ok h
        try dsimp only at h2
        cases hes : st2.endScopeO with
        | none => rw [hes] at h2; cases h2
        | some st3 =>
            rw [hes] at h2
            cases h2
            have p1 := ihL _ _ _ _ h1
            obtain ⟨hfr3, _, _, hencc⟩ := endScopeO_inv hes
            have hb := beginScope_facts st
            have hlen1 : st.beginScope.frames.length = st.frames.length + 1 :=
              hb.2.1
            have hcur2 : st2.cur = st.frames.length := by
              rw [p1.1, hb.1]
            have henc2 : encAt st2 st.frames.length
                = encAt st.beginScope st.frames.length :=
              p1.2.2 st.frames.length (by omega)
            refine ⟨?_, ?_, ?_⟩
            · rw [hcur2] at hencc
              rw [henc2, hb.2.2.1] at hencc
              have := Option.some_injective _ hencc
              exact (Option.some_injective _ this).symm
            · calc st.frames.length ≤ st.frames.length + 1 := Nat.le_succ _
                _ = st.beginScope.frames.length := hlen1.symm
                _ ≤ st2.frames.length := p1.2.1
                _ = st'.frames.length := by rw [hfr3]
            · intro i hi
              have e1 : encAt st' i = encAt st2 i := by unfold encAt; rw [hfr3]
              have e2 : encAt st2 i = encAt st.beginScope i :=
                p1.2.2 i (by omega)
              have e3 : encAt st.beginScope i = encAt st i := hb.2.2.2 i hi
              rw [e1, e2, e3]
      -- evalStmtList
      · intro stmts st sig st' h
        rw [evalStmtList.eq_def] at h
        simp only [] at h
        cases stmts <;> try dsimp only at h
        case nil => cases h; exact Pres_refl st
        case cons s rest =>
            obtain ⟨sig1, st1, h1, h2⟩ := Res.andThen_eq_ok h
            have p1 := ihS _ _ _ _ h1
            cases sig1 <;> try dsimp only at h2
            case noneSig => exact Pres_trans p1 (ihL _ _ _ _ h2)
            case ret v2 => cases h2; exact p1
      -- evalWhile
      · intro c b st sig st' h
        rw [evalWhile.eq_def] at h
        simp only [] at h
        obtain ⟨v1, st1, h1, h2⟩ := Res.andThen_eq_ok h
        have p1 := ihE _ _ _ _ h1
        split at h2
        · obtain ⟨sig2, st2, h3, h4⟩ := Res.andThen_eq_ok h2
          exact Pres_trans (Pres_trans p1 (ihS _ _ _ _ h3)) (ihW _ _ _ _ _ h4)
        · cases h2; exact p1

/-! ## C1: environment restoration -/

/-- C1 counterexample: a block whose body raises a runtime error
(`-nil`) propagates the error with the block's frame still current —
the current environment is `1` (the pushed frame), not the `0` it
started from, so the restore is not performed on the error path.  The
same `?`-before-cleanup shape is in `LoxFunction::call`. -/
theorem block_env_leak_on_error :
    evalStmt 10 (.block [.exprStmt (.unary ⟨1, 1, .minus⟩ (.literal .nil))])
        (St.init RState.init) =
      .err (.expectedNumber ⟨1, 1, .minus⟩)
        ⟨[⟨[], none⟩, ⟨[], some 0⟩], 1, [], ⟨[[]], [], []⟩⟩ ∧
    (⟨[⟨[], none⟩, ⟨[], some 0⟩], 1, [], ⟨[[]], [], []⟩⟩ : St).cur ≠
      (St.init RState.init).cur := by
  constructor
  · rfl
  · decide

/-- C1 (amended): on every evaluation that completes without a runtime
error — normal completion or a `Return` control signal — a block pops
the frame it pushed and a call restores the saved caller environment;
on a runtime error the current environment is not restored (the error
aborts evaluation). -/
theorem env_restored_on_ok :
    (∀ fuel stmts st sig st',
      evalBlock fuel stmts st = .ok sig st' → st'.cur = st.cur) ∧
    (∀ fuel nm ps b env args st v st',
      callFun fuel nm ps b env args st = .ok v st' → st'.cur = st.cur) := by
  constructor
  · intro fuel stmts st sig st' h
    exact ((evalPreserve fuel).2.2.2.2.1 stmts st sig st' h).1
  · intro fuel nm ps b env args st v st' h
    exact ((evalPreserve fuel).2.2.1 nm ps b env args st v st' h).1

/-- Witness for `env_restored_on_ok`: an empty block and a nullary
call both restore the current environment index `0`. -/
theorem env_restored_on_ok_witness :
    (⟨[⟨[], none⟩, ⟨[], some 0⟩], 0, [], RState.init⟩ : St).cur =
      (St.init RState.init).cur ∧
    (⟨[⟨[], none⟩, ⟨[], some 0⟩, ⟨[], some 1⟩], 0, [], RState.init⟩ : St).cur =
      (St.init RState.init).cur := by
  constructor
  · exact env_restored_on_ok.1 2 [] (St.init RState.init) .noneSig
      ⟨[⟨[], none⟩, ⟨[], some 0⟩], 0, [], RState.init⟩ (by rfl)
  · exact env_restored_on_ok.2 4 ⟨1, 1, .identifier "f"⟩ [] (.block []) 0 []
      (St.init RState.init) .nil
      ⟨[⟨[], none⟩, ⟨[], some 0⟩, ⟨[], some 1⟩], 0, [], RState.init⟩ (by rfl)

/-! ## C2: `while` never propagates a signal -/

/-- C2: a `while` evaluation that completes without a runtime error
always yields the `None` control signal, and a `Return` signal
produced by an iteration's body is discarded: the loop simply
continues from the body's final state. -/
theorem while_discards_signal :
    (∀ fuel c b st sig st',
      evalWhile fuel c b st = .ok sig st' → sig = .noneSig) ∧
    (∀ (f : Nat) c b st v st1 sig st2,
      evalExpr f c st = .ok v st1 → v.isTruthy = true →
      evalStmt f b st1 = .ok sig st2 →
      evalWhile (f + 1) c b st = evalWhile f c b st2) := by
  constructor
  · intro fuel
    induction fuel with
    | zero => intro c b st sig st' h; cases h
    | succ f ih =>
        intro c b st sig st' h
        rw [evalWhile.eq_def] at h
        simp only [] at h
        obtain ⟨v1, st1, h1, h2⟩ := Res.andThen_eq_ok h
        split at h2
        · obtain ⟨sig2, st2, h3, h4⟩ := Res.andThen_eq_ok h2
          exact ih c b st2 sig st' h4
        · cases h2; rfl
  · intro f c b st v st1 sig st2 h1 htru h2
    rw [evalWhile.eq_def]
    simp only []
    rw [h1, Res.andThen_ok, htru]
    simp only [if_true]
    rw [h2, Res.andThen_ok]

/-- Witness for `while_discards_signal`: `while (false) return nil;`
yields `None`, and with a true condition the `Return nil` of the body
is discarded and the loop recurses. -/
theorem while_discards_signal_witness :
    (ControlSignal.noneSig = ControlSignal.noneSig) ∧
    evalWhile 3 (.literal (.bool true)) (.returnS (.literal .nil))
        (St.init RState.init) =
      evalWhile 2 (.literal (.bool true)) (.returnS (.literal .nil))
        (St.init RState.init) := by
  constructor
  · exact while_discards_signal.1 2 (.literal (.bool false))
      (.returnS (.literal .nil)) (St.init RState.init) .noneSig
      (St.init RState.init) (by rfl)
  · exact while_discards_signal.2 2 (.literal (.bool true))
      (.returnS (.literal .nil)) (St.init RState.init) (.bool true)
      (St.init RState.init) (.ret .nil) (St.init RState.init)
      (by rfl) (by rfl) (by rfl)

/-! ## C10: top-level `return` -/

/-- C10: a top-level `return e;` evaluates `e` (with its state
effects), discards the `Return` control signal, and `interpret`
continues with the remaining statements from the post-`e` state. -/
theorem toplevel_return_continues :
    ∀ (f : Nat) (e : Expr) (rest : List Stmt) (st : St) (v : Value) (st' : St),
      evalExpr f e st = .ok v st' →
      interpret (f + 1) (Stmt.returnS e :: rest) st =
        interpret (f + 1) rest st' := by
  intro f e rest st v st' h
  have hs : evalStmt (f + 1) (.returnS e) st = .ok (.ret v) st' := by
    rw [evalStmt.eq_def]
    simp only []
    rw [h, Res.andThen_ok]
  rw [interpret, hs, Res.andThen_ok]

/-- Witness for `toplevel_return_continues`: `return nil; print
"after";` keeps executing after the top-level `return`. -/
theorem toplevel_return_continues_witness :
    interpret 2 [Stmt.returnS (.literal .nil),
                 Stmt.printStmt (.literal (.str "after"))]
        (St.init RState.init) =
      interpret 2 [Stmt.printStmt (.literal (.str "after"))]
        (St.init RState.init) :=
  toplevel_return_continues 1 (.literal .nil)
    [Stmt.printStmt (.literal (.str "after"))] (St.init RState.init)
    .nil (St.init RState.init) (by rfl)

/-! ## C6: logical operators -/

/-- C6: logical expressions evaluate the left operand first; `or`
yields `Bool(true)` without evaluating the right operand when the left
is truthy and otherwise reduces to evaluating the right operand and
coercing it to `Bool`; `and` symmetrically with `Bool(false)` on a
falsy left; and every successful logical evaluation yields a `Bool`
value. -/
theorem logical_shortcircuit :
    (∀ (f : Nat) (l r : Expr) (opTok : Token) (st : St) lv st1,
      opTok.kind = .kOr → evalExpr f l st = .ok lv st1 →
      lv.isTruthy = true →
      evalExpr (f + 1) (.logical l opTok r) st = .ok (.bool true) st1) ∧
    (∀ (f : Nat) (l r : Expr) (opTok : Token) (st : St) lv st1,
      opTok.kind = .kOr → evalExpr f l st = .ok lv st1 →
      lv.isTruthy = false →
      evalExpr (f + 1) (.logical l opTok r) st =
        (evalExpr f r st1).andThen fun rv st => .ok (.bool rv.isTruthy) st) ∧
    (∀ (f : Nat) (l r : Expr) (opTok : Token) (st : St) lv st1,
      opTok.kind = .kAnd → evalExpr f l st = .ok lv st1 →
      lv.isFalsy = true →
      evalExpr (f + 1) (.logical l opTok r) st = .ok (.bool false) st1) ∧
    (∀ (f : Nat) (l r : Expr) (opTok : Token) (st : St) lv st1,
      opTok.kind = .kAnd → evalExpr f l st = .ok lv st1 →
      lv.isFalsy = false →
      evalExpr (f + 1) (.logical l opTok r) st =
        (evalExpr f r st1).andThen fun rv st => .ok (.bool rv.isTruthy) st) ∧
    (∀ (f : Nat) (l r : Expr) (opTok : Token) (st : St) v st',
      evalExpr f (.logical l opTok r) st = .ok v st' →
      ∃ b, v = .bool b) := by
  refine ⟨?_, ?_, ?_, ?_, ?_⟩
  · intro f l r opTok st lv st1 hop h1 htru
    rw [evalExpr.eq_def]
    simp only []
    rw [hop, h1, Res.andThen_ok, htru]
    simp
  · intro f l r opTok st lv st1 hop h1 hfls
    rw [evalExpr.eq_def]
    simp only []
    rw [hop, h1, Res.andThen_ok, hfls]
    simp
  · intro f l r opTok st lv st1 hop h1 hfls
    rw [evalExpr.eq_def]
    simp only []
    rw [hop, h1]
    simp only [Res.andThen]
    rw [hfls]
    simp
  · intro f l r opTok st lv st1 hop h1 htru
    rw [evalExpr.eq_def]
    simp only []
    rw [hop, h1]
    simp only [Res.andThen]
    rw [htru]
    simp
  · intro f l r opTok st v st' h
    match f with
    | 0 => cases h
    | g + 1 =>
        rw [evalExpr.eq_def] at h
        simp only [] at h
        cases hop : opTok.kind <;> rw [hop] at h <;> try cases h
        case kOr =>
            obtain ⟨v1, st1, h1, h2⟩ := Res.andThen_eq_ok h
            split at h2
            · cases h2; exact ⟨true, rfl⟩
            · obtain ⟨v2, st2, h3, h4⟩ := Res.andThen_eq_ok h2
              cases h4
              exact ⟨_, rfl⟩
        case kAnd =>
            obtain ⟨v1, st1, h1, h2⟩ := Res.andThen_eq_ok h
            split at h2
            · cases h2; exact ⟨false, rfl⟩
            · obtain ⟨v2, st2, h3, h4⟩ := Res.andThen_eq_ok h2
              cases h4
              exact ⟨_, rfl⟩

/-- Witness for `logical_shortcircuit`: `"x" or nil` short-circuits
to `Bool(true)`; `nil and nil` to `Bool(false)`. -/
theorem logical_shortcircuit_witness :
    evalExpr 2 (.logical (.literal (.str "x")) ⟨1, 1, .kOr⟩ (.literal .nil))
        (St.init RState.init) =
      .ok (.bool true) (St.init RState.init) ∧
    evalExpr 2 (.logical (.literal .nil) ⟨1, 1, .kAnd⟩ (.literal .nil))
        (St.init RState.init) =
      .ok (.bool false) (St.init RState.init) := by
  constructor
  · exact logical_shortcircuit.1 1 (.literal (.str "x")) (.literal .nil)
      ⟨1, 1, .kOr⟩ (St.init RState.init) (.str "x") (St.init RState.init)
      rfl (by rfl) rfl
  · exact logical_shortcircuit.2.2.1 1 (.literal .nil) (.literal .nil)
      ⟨1, 1, .kAnd⟩ (St.init RState.init) .nil (St.init RState.init)
      rfl (by rfl) rfl

/-! ## C3: function-call evaluation -/

/-- Whether a runtime value is a `Callable`. -/
def Value.isCallable : Value → Bool
  | .callable _ _ _ _ => true
  | _ => false

/-- C3: after evaluating the callee, a non-`Callable` fails with
`ExpectedCallable` at the closing paren; a `Callable` of wrong arity
fails with `CallableBadArgsCount` with the state exactly as it was
after the callee — before any argument is evaluated; otherwise the
arguments are evaluated left-to-right and the call runs; the call's
result is `v` for a body signal `Return(v)` and `Nil` otherwise. -/
theorem fun_call_eval :
    (∀ (f : Nat) callee paren args (st : St) v st1,
      evalExpr f callee st = .ok v st1 → v.isCallable = false →
      evalExpr (f + 1) (.funCall callee paren args) st =
        .err (.expectedCallable paren) st1) ∧
    (∀ (f : Nat) callee paren args (st : St) nm ps b env st1,
      evalExpr f callee st = .ok (.callable nm ps b env) st1 →
      ps.length ≠ args.length →
      evalExpr (f + 1) (.funCall callee paren args) st =
        .err (.callableBadArgsCount paren) st1) ∧
    (∀ (f : Nat) callee paren args (st : St) nm ps b env st1,
      evalExpr f callee st = .ok (.callable nm ps b env) st1 →
      ps.length = args.length →
      evalExpr (f + 1) (.funCall callee paren args) st =
        (evalArgs f args st1).andThen fun argVals st =>
          callFun f nm ps b env argVals st) ∧
    (∀ (f : Nat) (a : Expr) (rest : List Expr) (st : St) v st1,
      evalExpr f a st = .ok v st1 →
      evalArgs (f + 1) (a :: rest) st =
        (evalArgs f rest st1).andThen fun vs st => .ok (v :: vs) st) ∧
    (∀ (f : Nat) nm ps b env args (st : St) st1 sig st2 st3,
      ps.length = args.length →
      declareParams ps args (({ st with cur := env } : St).beginScope) =
        some st1 →
      evalStmt f b st1 = .ok sig st2 →
      st2.endScopeO = some st3 →
      callFun (f + 1) nm ps b env args st =
        .ok (match sig with | .ret v => v | .noneSig => Value.nil)
          { st3 with cur := st.cur }) := by
  refine ⟨?_, ?_, ?_, ?_, ?_⟩
  · intro f callee paren args st v st1 h1 hnc
    rw [evalExpr.eq_def]
    simp only []
    rw [h1, Res.andThen_ok]
    cases v <;> simp [Value.isCallable] at hnc ⊢
  · intro f callee paren args st nm ps b env st1 h1 har
    rw [evalExpr.eq_def]
    simp only []
    rw [h1, Res.andThen_ok]
    simp [har]
  · intro f callee paren args st nm ps b env st1 h1 har
    rw [evalExpr.eq_def]
    simp only []
    rw [h1, Res.andThen_ok]
    simp [har]
  · intro f a rest st v st1 h1
    rw [evalArgs.eq_def]
    simp only []
    rw [h1, Res.andThen_ok]
  · intro f nm ps b env args st st1 sig st2 st3 harity hdp hbody hend
    rw [callFun.eq_def]
    simp only [St.swapEnvironment]
    rw [if_neg (by omega)]
    rw [hdp]
    simp only []
    rw [hbody, Res.andThen_ok]
    try simp only []
    rw [hend]

/-- Witness for `fun_call_eval`: calling `nil` fails with
`ExpectedCallable`; calling a nullary function with one argument fails
with `CallableBadArgsCount` before evaluating it; calling it correctly
returns `Nil`. -/
theorem fun_call_eval_witness :
    evalExpr 2 (.funCall (.literal .nil) ⟨1, 9, .rightParen⟩ [])
        (St.init RState.init) =
      .err (.expectedCallable ⟨1, 9, .rightParen⟩) (St.init RState.init) ∧
    evalExpr 2 (.funCall
        (.literal (.callable ⟨1, 1, .identifier "f"⟩ [] (.block []) 0))
        ⟨1, 9, .rightParen⟩ [.literal .nil]) (St.init RState.init) =
      .err (.callableBadArgsCount ⟨1, 9, .rightParen⟩) (St.init RState.init) ∧
    callFun 4 ⟨1, 1, .identifier "f"⟩ [] (.block []) 0 []
        (St.init RState.init) =
      .ok Value.nil
        ⟨[⟨[], none⟩, ⟨[], some 0⟩, ⟨[], some 1⟩], 0, [], RState.init⟩ := by
  refine ⟨?_, ?_, ?_⟩
  · exact fun_call_eval.1 1 (.literal .nil) ⟨1, 9, .rightParen⟩ []
      (St.init RState.init) .nil (St.init RState.init) (by rfl) rfl
  · exact fun_call_eval.2.1 1
      (.literal (.callable ⟨1, 1, .identifier "f"⟩ [] (.block []) 0))
      ⟨1, 9, .rightParen⟩ [.literal .nil] (St.init RState.init)
      ⟨1, 1, .identifier "f"⟩ [] (.block []) 0 (St.init RState.init)
      (by rfl) (by decide)
  · have := fun_call_eval.2.2.2.2 3 ⟨1, 1, .identifier "f"⟩ [] (.block []) 0
      [] (St.init RState.init)
      ⟨[⟨[], none⟩, ⟨[], some 0⟩], 1, [], RState.init⟩ .noneSig
      ⟨[⟨[], none⟩, ⟨[], some 0⟩, ⟨[], some 1⟩], 1, [], RState.init⟩
      ⟨[⟨[], none⟩, ⟨[], some 0⟩, ⟨[], some 1⟩], 0, [], RState.init⟩
      rfl (by rfl) (by rfl) (by rfl)
    exact this

/-! ## C9: resolved programs and evaluator lookups -/

/-- A program (not producible by the parser: it reuses use-site id 1)
that resolves without errors yet crashes a lookup: the second
resolution of id 1 overwrites the first one's depth. -/
def c9CexStmts : List Stmt :=
  [.varDecl ⟨1, 5, .identifier "x"⟩ (some (.literal .nil)),
   .block
     [.varDecl ⟨2, 7, .identifier "y"⟩ (some (.literal .nil)),
      .exprStmt (.variableE 1 ⟨1, 5, .identifier "x"⟩),
      .exprStmt (.variableE 1 ⟨2, 7, .identifier "y"⟩)]]

/-- C9 counterexample: `c9CexStmts` resolves with no resolver errors
(the result state carries an empty error list), but evaluating it hits
an internal lookup failure (the `crash` outcome): the read of `x`
consults the overwritten depth 0 and misses. -/
theorem resolved_lookup_crash_counterexample :
    resolve 10 c9CexStmts RState.init = .ok () ⟨[[]], [(1, 0)], []⟩ ∧
    interpret 10 c9CexStmts (St.init ⟨[[]], [(1, 0)], []⟩) = .crash := by
  constructor
  · rfl
  · rfl

/-- A static scope: the names a frame is guaranteed to contain. -/
abbrev SScope : Type := List String

/-- A static scope stack, innermost first (the reverse of the
resolver's `scopes` vector, without its never-written base scope). -/
abbrev SStack : Type := List SScope

/-- Lookup in an id→depth binding map (the resolver's
`get_bound_depth` on its `bindings`). -/
def lookupBinding (B : List (Nat × Nat)) (id : Nat) : Option Nat :=
  (List.find? (fun p => p.1 = id) B).map (·.2)

/-- Declaring a name in a static scope (idempotent). -/
def addName (sc : SScope) (n : String) : SScope :=
  if n ∈ sc then sc else n :: sc

/-- The names of a parameter list, when every token is an
identifier. -/
def paramNames : List Token → Option (List String)
  | [] => some []
  | p :: ps =>
      match p.extractIdentifier with
      | some n => (paramNames ps).map fun ns => n :: ns
      | none => none

/-- The token kinds `eval_binary_expr` dispatches on without
panicking. -/
def isBinaryOpKind : TokenKind → Bool
  | .star | .slash | .plus | .minus
  | .greater | .greaterEqual | .less | .lessEqual
  | .equalEqual | .bangEqual => true
  | _ => false

/-- Successful resolution of an expression against binding map `B`
and static stack `S` (innermost first): exactly what a run of
`Resolver::resolve_expr` through a parser-produced expression
guarantees about the final bindings, plus the parser-supplied shape of
operator and name tokens (the evaluator panics on other shapes). -/
inductive RExpr (B : List (Nat × Nat)) : SStack → Expr → Prop where
  | literal : ∀ S (v : Value), v.isCallable = false →
      RExpr B S (.literal v)
  | grouping : ∀ S inner, RExpr B S inner → RExpr B S (.grouping inner)
  | variableE : ∀ S id tok name d sc,
      tok.kind = .identifier name → lookupBinding B id = some d →
      S.get? d = some sc → name ∈ sc → RExpr B S (.variableE id tok)
  | assignment : ∀ S id tok name d sc e,
      tok.kind = .identifier name → lookupBinding B id = some d →
      S.get? d = some sc → name ∈ sc → RExpr B S e →
      RExpr B S (.assignment id tok e)
  | unary : ∀ S op r, (op.kind = .minus ∨ op.kind = .bang) →
      RExpr B S r → RExpr B S (.unary op r)
  | binary : ∀ S l op r, isBinaryOpKind op.kind = true →
      RExpr B S l → RExpr B S r → RExpr B S (.binary l op r)
  | logical : ∀ S l op r, (op.kind = .kOr ∨ op.kind = .kAnd) →
      RExpr B S l → RExpr B S r → RExpr B S (.logical l op r)
  | funCall : ∀ S callee paren args, RExpr B S callee →
      (∀ a, a ∈ args → RExpr B S a) →
      RExpr B S (.funCall callee paren args)

mutual

/-- Successful resolution of one parser-shaped statement: `S` is the
static stack before, the result stack after (only declarations grow
the head scope; statement positions that the parser cannot fill with
declarations are required to leave the stack unchanged). -/
inductive RStmt (B : List (Nat × Nat)) : SStack → Stmt → SStack → Prop where
  | exprStmt : ∀ S e, RExpr B S e → RStmt B S (.exprStmt e) S
  | printStmt : ∀ S e, RExpr B S e → RStmt B S (.printStmt e) S
  | returnS : ∀ S e, RExpr B S e → RStmt B S (.returnS e) S
  | varDeclSome : ∀ sc rest tok n e,
      tok.kind = .identifier n → RExpr B (sc :: rest) e →
      RStmt B (sc :: rest) (.varDecl tok (some e)) (addName sc n :: rest)
  | varDeclNone : ∀ sc rest tok n,
      tok.kind = .identifier n →
      RStmt B (sc :: rest) (.varDecl tok none) (addName sc n :: rest)
  | block : ∀ S ss S₂, RStmts B ([] :: S) ss S₂ →
      RStmt B S (.block ss) S
  | ifS : ∀ S c t eOpt, RExpr B S c → RStmt B S t S →
      (∀ e, eOpt = some e → RStmt B S e S) →
      RStmt B S (.ifS c t eOpt) S
  | whileS : ∀ S c b, RExpr B S c → RStmt B S b S →
      RStmt B S (.whileS c b) S
  | funDecl : ∀ sc rest nmTok fn params psn body,
      nmTok.kind = .identifier fn → paramNames params = some psn →
      RStmt B (psn :: addName sc fn :: rest) body
        (psn :: addName sc fn :: rest) →
      RStmt B (sc :: rest) (.funDecl nmTok params body)
        (addName sc fn :: rest)

/-- Resolution of a declaration list, threading the stack. -/
inductive RStmts (B : List (Nat × Nat)) : SStack → List Stmt → SStack → Prop where
  | nil : ∀ S, RStmts B S [] S
  | cons : ∀ S s S₁ ss S₂, RStmt B S s S₁ → RStmts B S₁ ss S₂ →
      RStmts B S (s :: ss) S₂

end

/-- Whether a frame binds a name. -/
def Frame.hasName (fr : Frame) (n : String) : Prop :=
  (List.find? (fun p => p.1 = n) fr.vars).isSome = true

/-- The frame chain starting at `env` realizes the static stack `S`:
each frame exists, contains at least the names of its static scope,
and the enclosing links continue the chain. -/
def Realizes (st : St) : Nat → SStack → Prop
  | _, [] => True
  | env, sc :: rest =>
      ∃ fr, st.frames.get? env = some fr ∧
        (∀ n, n ∈ sc → fr.hasName n) ∧
        (rest = [] ∨ ∃ e, fr.enc = some e ∧ Realizes st e rest)

/-- Evaluation-step monotonicity on the frame store: the resolver is
untouched, frames are only appended, and an existing frame keeps its
enclosing pointer and can only gain names. -/
def Mono (st st' : St) : Prop :=
  st'.resolver = st.resolver ∧ st.frames.length ≤ st'.frames.length ∧
  ∀ i fr, st.frames.get? i = some fr →
    ∃ fr', st'.frames.get? i = some fr' ∧ fr'.enc = fr.enc ∧
      ∀ n, fr.hasName n → fr'.hasName n

/-- A runtime value is sound: a callable carries an identifier name
token, identifier parameter tokens, and a captured environment whose
chain realizes a static stack against which its body resolves. -/
def ValOK (st : St) : Value → Prop
  | .callable nmTok params body env =>
      (∃ s, nmTok.kind = .identifier s) ∧
      ∃ psn S₀, paramNames params = some psn ∧ Realizes st env S₀ ∧
        RStmt st.resolver.bindings (psn :: S₀) body (psn :: S₀)
  | _ => True

/-- Every value stored in any frame is sound. -/
def StoreOK (st : St) : Prop :=
  ∀ i fr, st.frames.get? i = some fr → ∀ p, p ∈ fr.vars → ValOK st p.2

theorem Mono.refl (st : St) : Mono st st :=
  ⟨rfl, Nat.le_refl _, fun i fr h => ⟨fr, h, rfl, fun _ hn => hn⟩⟩

theorem Mono.trans {s1 s2 s3 : St} (h1 : Mono s1 s2) (h2 : Mono s2 s3) :
    Mono s1 s3 := by
  refine ⟨h2.1.trans h1.1, h1.2.1.trans h2.2.1, ?_⟩
  intro i fr hget
  obtain ⟨fr2, hg2, he2, hn2⟩ := h1.2.2 i fr hget
  obtain ⟨fr3, hg3, he3, hn3⟩ := h2.2.2 i fr2 hg2
  exact ⟨fr3, hg3, he3.trans he2, fun n hn => hn3 n (hn2 n hn)⟩

theorem Mono_of_frames_eq {st st' : St} (hf : st'.frames = st.frames)
    (hr : st'.resolver = st.resolver) : Mono st st' := by
  refine ⟨hr, by rw [hf], ?_⟩
  intro i fr hget
  exact ⟨fr, by rw [hf]; exact hget, rfl, fun _ hn => hn⟩

theorem Realizes_mono {st st' : St} (hm : Mono st st') :
    ∀ S env, Realizes st env S → Realizes st' env S := by
  intro S
  induction S with
  | nil => intro env _; trivial
  | cons sc rest ih =>
      intro env hr
      obtain ⟨fr, hget, hnames, htail⟩ := hr
      obtain ⟨fr', hget', henc', hnames'⟩ := hm.2.2 env fr hget
      refine ⟨fr', hget', fun n hn => hnames' n (hnames n hn), ?_⟩
      rcases htail with hnil | ⟨e, henc, hrec⟩
      · exact Or.inl hnil
      · exact Or.inr ⟨e, by rw [henc', henc], ih e hrec⟩

theorem ValOK_mono {st st' : St} (hm : Mono st st') :
    ∀ v, ValOK st v → ValOK st' v := by
  intro v hv
  cases v with
  | callable nmTok params body env =>
      obtain ⟨hname, psn, S₀, hps, hre, hbody⟩ := hv
      exact ⟨hname, psn, S₀, hps, Realizes_mono hm S₀ env hre,
        by rw [hm.1]; exact hbody⟩
  | number n => trivial
  | str s => trivial
  | bool b => trivial
  | nil => trivial

/-- `insertVar` keeps every old name and adds the new one; each stored
pair is either the old pair or carries the inserted value. -/
theorem insertVar_facts (fr : Frame) (n : String) (v : Value) :
    (fr.insertVar n v).enc = fr.enc ∧
    (∀ m, fr.hasName m → (fr.insertVar n v).hasName m) ∧
    (fr.insertVar n v).hasName n ∧
    (∀ p, p ∈ (fr.insertVar n v).vars → p.2 = v ∨ p ∈ fr.vars) := by
  unfold Frame.insertVar Frame.hasName
  split
  · rename_i hfound
    refine ⟨rfl, ?_, ?_, ?_⟩
    · intro m hm
      simp only [List.find?_isSome] at hm ⊢
      obtain ⟨p, hp, hpm⟩ := hm
      refine ⟨if p.1 = n then (p.1, v) else p, List.mem_map_of_mem _ hp, ?_⟩
      split <;> simpa using hpm
    · simp only [List.find?_isSome] at hfound ⊢
      obtain ⟨p, hp, hpn⟩ := hfound
      refine ⟨if p.1 = n then (p.1, v) else p, List.mem_map_of_mem _ hp, ?_⟩
      simp only [decide_eq_true_eq] at hpn
      simp [hpn]
    · intro p hp
      simp only [List.mem_map] at hp
      obtain ⟨q, hq, hqe⟩ := hp
      by_cases hqn : q.1 = n
      · left; rw [← hqe]; simp [hqn]
      · right; rw [← hqe]; simpa [hqn] using hq
  · refine ⟨rfl, ?_, ?_, ?_⟩
    · intro m hm
      simp only [List.find?_isSome] at hm ⊢
      obtain ⟨p, hp, hpm⟩ := hm
      exact ⟨p, List.mem_append_left _ hp, hpm⟩
    · simp only [List.find?_isSome]
      exact ⟨(n, v), List.mem_append_right _ (List.mem_singleton.mpr rfl),
        by simp⟩
    · intro p hp
      rcases List.mem_append.mp hp with hl | hr
      · exact Or.inr hl
      · left
        rw [List.mem_singleton.mp hr]

theorem get?_set_self {α : Type} {l : List α} {j : Nat} {a : α} (b : α)
    (h : l.get? j = some a) : (l.set j b).get? j = some b := by
  rw [List.get?_set_eq_of_lt]
  exact (List.get?_eq_some.mp h).1

theorem get?_set_other {α : Type} {l : List α} {j i : Nat} (hne : i ≠ j)
    (b : α) : (l.set j b).get? i = l.get? i := by
  simp only [List.get?_eq_getElem?]
  rw [List.getElem?_set_ne (fun h => hne h.symm)]

/-- In-place reassignment keeps the enclosing pointer and the name
domain; every stored pair is the new value or an old pair. -/
theorem assignMap_facts (fr : Frame) (n : String) (v : Value) :
    ({ fr with vars := fr.vars.map fun p =>
        if p.1 = n then (p.1, v) else p } : Frame).enc = fr.enc ∧
    (∀ m, fr.hasName m ↔
      ({ fr with vars := fr.vars.map fun p =>
          if p.1 = n then (p.1, v) else p } : Frame).hasName m) ∧
    (∀ p, p ∈ (fr.vars.map fun p => if p.1 = n then (p.1, v) else p) →
      p.2 = v ∨ p ∈ fr.vars) := by
  refine ⟨rfl, ?_, ?_⟩
  · intro m
    unfold Frame.hasName
    simp only [List.find?_isSome]
    constructor
    · rintro ⟨p, hp, hpm⟩
      refine ⟨if p.1 = n then (p.1, v) else p, List.mem_map_of_mem _ hp, ?_⟩
      split <;> simpa using hpm
    · rintro ⟨p, hp, hpm⟩
      simp only [List.mem_map] at hp
      obtain ⟨q, hq, hqe⟩ := hp
      refine ⟨q, hq, ?_⟩
      rw [← hqe] at hpm
      by_cases hqn : q.1 = n
      · simpa [hqn] using hpm
      · simpa [hqn] using hpm
  · intro p hp
    simp only [List.mem_map] at hp
    obtain ⟨q, hq, hqe⟩ := hp
    by_cases hqn : q.1 = n
    · left; rw [← hqe]; simp [hqn]
    · right; rw [← hqe]; simpa [hqn] using hq

theorem Mono_declare (st : St) (n : String) (v : Value) :
    Mono st (st.declare n v) ∧ (st.declare n v).cur = st.cur := by
  unfold St.declare
  cases hg : st.frames.get? st.cur with
  | none => exact ⟨Mono.refl st, rfl⟩
  | some fr =>
      obtain ⟨henc, hkeep, hnew, hmem⟩ := insertVar_facts fr n v
      refine ⟨⟨rfl, by simp, ?_⟩, rfl⟩
      intro i fr0 hget0
      by_cases hic : i = st.cur
      · subst hic
        rw [hget0] at hg
        cases hg
        exact ⟨fr.insertVar n v, get?_set_self _ hget0, henc, hkeep⟩
      · exact ⟨fr0, by rw [get?_set_other hic]; exact hget0, rfl,
          fun _ hn => hn⟩

theorem StoreOK_declare {st : St} {n : String} {v : Value}
    (hs : StoreOK st) (hv : ValOK (st.declare n v) v) :
    StoreOK (st.declare n v) := by
  have hmono := (Mono_declare st n v).1
  intro i fr' hget' p hp
  unfold St.declare at hget'
  cases hg : st.frames.get? st.cur with
  | none =>
      rw [hg] at hget'
      exact ValOK_mono hmono _ (hs i fr' hget' p hp)
  | some fr =>
      rw [hg] at hget'
      simp only [] at hget'
      by_cases hic : i = st.cur
      · subst hic
        rw [get?_set_self _ hg] at hget'
        cases hget'
        rcases (insertVar_facts fr n v).2.2.2 p hp with hpv | hpold
        · rw [hpv]
          exact hv
        · exact ValOK_mono hmono _ (hs _ fr hg p hpold)
      · rw [get?_set_other hic] at hget'
        exact ValOK_mono hmono _ (hs i fr' hget' p hp)

theorem declare_realizes {st : St} {sc : SScope} {rest : SStack}
    (n : String) (v : Value) (hr : Realizes st st.cur (sc :: rest)) :
    Realizes (st.declare n v) st.cur (addName sc n :: rest) := by
  obtain ⟨fr, hget, hnames, htail⟩ := hr
  have hmono := (Mono_declare st n v).1
  obtain ⟨henc, hkeep, hnew, _⟩ := insertVar_facts fr n v
  refine ⟨fr.insertVar n v, ?_, ?_, ?_⟩
  · unfold St.declare
    rw [hget]
    exact get?_set_self _ hget
  · intro m hm
    unfold addName at hm
    split at hm
    · exact hkeep m (hnames m hm)
    · rcases List.mem_cons.mp hm with rfl | hmem
      · exact hnew
      · exact hkeep m (hnames m hmem)
  · rcases htail with hnil | ⟨e, he, hrec⟩
    · exact Or.inl hnil
    · exact Or.inr ⟨e, by rw [henc, he],
        Realizes_mono hmono rest e hrec⟩

theorem Mono_beginScope (st : St) : Mono st st.beginScope := by
  refine ⟨rfl, by simp [St.beginScope], ?_⟩
  intro i fr hget
  refine ⟨fr, ?_, rfl, fun _ hn => hn⟩
  unfold St.beginScope
  simp only [List.get?_eq_getElem?] at hget ⊢
  rw [List.getElem?_append_left (by
    have := List.getElem?_eq_some.mp hget
    exact this.1)]
  exact hget

theorem beginScope_realizes {st : St} {S : SStack}
    (hr : Realizes st st.cur S) :
    Realizes st.beginScope st.beginScope.cur ([] :: S) := by
  refine ⟨⟨[], some st.cur⟩, ?_, ?_, ?_⟩
  · unfold St.beginScope
    simp
  · intro n hn
    cases hn
  · cases S with
    | nil => exact Or.inl rfl
    | cons sc rest =>
        exact Or.inr ⟨st.cur, rfl,
          Realizes_mono (Mono_beginScope st) _ st.cur hr⟩

/-- A lookup at a depth backed by the realized static stack succeeds,
and the value found is store-sound. -/
theorem lookup_succeeds :
    ∀ (d : Nat) (S : SStack) (env : Nat) (st : St) (sc : SScope) (n : String),
      Realizes st env S → S.get? d = some sc → n ∈ sc →
      ∃ v, lookupAtDepth st d env n = some v ∧ (StoreOK st → ValOK st v) := by
  intro d
  induction d with
  | zero =>
      intro S env st sc n hr hd hn
      cases S with
      | nil => cases hd
      | cons sc0 rest =>
          cases hd
          obtain ⟨fr, hget, hnames, _⟩ := hr
          have hhas := hnames n hn
          unfold Frame.hasName at hhas
          cases hf : List.find? (fun q => q.1 = n) fr.vars with
          | none =>
              rw [hf] at hhas
              simp at hhas
          | some q =>
              refine ⟨q.2, ?_, ?_⟩
              · unfold lookupAtDepth
                rw [hget]
                simp only []
                rw [hf]
                rfl
              · intro hs
                exact hs env fr hget q (List.mem_of_find?_eq_some hf)
  | succ d ih =>
      intro S env st sc n hr hd hn
      cases S with
      | nil => cases hd
      | cons sc0 rest =>
          obtain ⟨fr, hget, _, htail⟩ := hr
          have hrest : rest.get? d = some sc := hd
          rcases htail with hnil | ⟨e, henc, hrec⟩
          · rw [hnil] at hrest
            cases hrest
          · obtain ⟨v, hv, hvok⟩ := ih rest e st sc n hrec hrest hn
            refine ⟨v, ?_, hvok⟩
            unfold lookupAtDepth
            rw [hget]
            simp only []
            rw [henc]
            exact hv

/-- The frame update performed by `assign_at_depth` at depth zero. -/
def assignFrame (fr : Frame) (n : String) (v : Value) : Frame :=
  { fr with vars := fr.vars.map fun p => if p.1 = n then (p.1, v) else p }

/-- Reassigning inside the frame at `env` is a monotone store step. -/
theorem Mono_assignSet (st : St) (env : Nat) (fr : Frame) (n : String)
    (v : Value) (hget : st.frames.get? env = some fr) :
    Mono st { st with frames := st.frames.set env (assignFrame fr n v) } := by
  refine ⟨rfl, by simp, ?_⟩
  intro i fr0 hget0
  by_cases hie : i = env
  · subst hie
    rw [hget0] at hget
    cases hget
    exact ⟨_, get?_set_self _ hget0, (assignMap_facts _ n v).1,
      fun m hm => ((assignMap_facts _ n v).2.1 m).mp hm⟩
  · exact ⟨fr0, (get?_set_other hie _).trans hget0, rfl, fun _ hm => hm⟩

/-- An assignment at a depth backed by the realized static stack
succeeds, is monotone, and keeps the store sound when the assigned
value is. -/
theorem assign_succeeds :
    ∀ (d : Nat) (S : SStack) (env : Nat) (st : St) (sc : SScope)
      (n : String) (v : Value),
      Realizes st env S → S.get? d = some sc → n ∈ sc →
      ∃ st', assignAtDepth st d env n v = some st' ∧ Mono st st' ∧
        st'.cur = st.cur ∧ st'.out = st.out ∧
        (StoreOK st → ValOK st v → StoreOK st') := by
  intro d
  induction d with
  | zero =>
      intro S env st sc n v hr hd hn
      cases S with
      | nil => cases hd
      | cons sc0 rest =>
          cases hd
          obtain ⟨fr, hget, hnames, _⟩ := hr
          have hhas := hnames n hn
          unfold Frame.hasName at hhas
          cases hf : List.find? (fun q => q.1 = n) fr.vars with
          | none =>
              rw [hf] at hhas
              simp at hhas
          | some q =>
              obtain ⟨henc2, hdom, hmem⟩ := assignMap_facts fr n v
              have hmono := Mono_assignSet st env fr n v hget
              refine ⟨{ st with frames := st.frames.set env (assignFrame fr n v) },
                ?_, hmono, rfl, rfl, ?_⟩
              · unfold assignAtDepth
                rw [hget]
                simp only []
                rw [hf]
                rfl
              · intro hs hv
                intro i fr' hget'
                have hgs :
                    ({ st with frames := st.frames.set env (assignFrame fr n v) } : St).frames.get? env
                      = some (assignFrame fr n v) :=
                  get?_set_self _ hget
                by_cases hie : i = env
                · subst hie
                  rw [hgs] at hget'
                  cases hget'
                  intro p hp
                  rcases hmem p hp with hpv | hpold
                  · rw [hpv]
                    exact ValOK_mono hmono _ hv
                  · exact ValOK_mono hmono _ (hs _ fr hget p hpold)
                · have hgo :
                      ({ st with frames := st.frames.set env (assignFrame fr n v) } : St).frames.get? i
                        = st.frames.get? i := get?_set_other hie _
                  rw [hgo] at hget'
                  intro p hp
                  exact ValOK_mono hmono _ (hs i fr' hget' p hp)
  | succ d ih =>
      intro S env st sc n v hr hd hn
      cases S with
      | nil => cases hd
      | cons sc0 rest =>
          obtain ⟨fr, hget, _, htail⟩ := hr
          have hrest : rest.get? d = some sc := hd
          rcases htail with hnil | ⟨e, henc, hrec⟩
          · rw [hnil] at hrest
            cases hrest
          · obtain ⟨st', h1, h2, h3, h4, h5⟩ := ih rest e st sc n v hrec hrest hn
            refine ⟨st', ?_, h2, h3, h4, h5⟩
            unfold assignAtDepth
            rw [hget]
            simp only []
            rw [henc]
            exact h1

/-- Soundness of a control signal's payload. -/
def SigOK (st : St) : ControlSignal → Prop
  | .ret v => ValOK st v
  | .noneSig => True

theorem SigOK_mono {st st' : St} (hm : Mono st st') :
    ∀ sig, SigOK st sig → SigOK st' sig := by
  intro sig h
  cases sig with
  | noneSig => trivial
  | ret v => exact ValOK_mono hm v h

/-- The soundness contract on an evaluation result: a success
satisfies the postcondition, an error or running out of fuel is fine,
a panic is ruled out. -/
def EvalOK {α : Type} (P : α → St → Prop) : Res RuntimeError St α → Prop
  | .ok a s => P a s
  | .err _ _ => True
  | .crash => False
  | .timeout => True

theorem EvalOK.bind {α β : Type} {P1 : α → St → Prop} {P : β → St → Prop}
    {r : Res RuntimeError St α} {f : α → St → Res RuntimeError St β}
    (h1 : EvalOK P1 r) (h2 : ∀ a s, P1 a s → EvalOK P (f a s)) :
    EvalOK P (r.andThen f) := by
  cases r with
  | ok a s => exact h2 a s h1
  | err e s => trivial
  | crash => exact h1.elim
  | timeout => trivial

theorem EvalOK.ne_crash {α : Type} {P : α → St → Prop}
    {r : Res RuntimeError St α} (h : EvalOK P r) : r ≠ .crash := by
  intro hc
  rw [hc] at h
  exact h

theorem EvalOK.weaken {α : Type} {P Q : α → St → Prop}
    {r : Res RuntimeError St α} (h : EvalOK P r)
    (himp : ∀ a s, P a s → Q a s) : EvalOK Q r := by
  cases r with
  | ok a s => exact himp a s h
  | err e s => trivial
  | crash => exact h.elim
  | timeout => trivial

theorem extractIdentifier_of_kind {tok : Token} {n : String}
    (h : tok.kind = .identifier n) : tok.extractIdentifier = some n := by
  unfold Token.extractIdentifier
  rw [h]

theorem getBoundDepth_eq (r : RState) (id : Nat) :
    r.getBoundDepth id = lookupBinding r.bindings id := rfl

theorem StoreOK_transfer {st st' : St} (hf : st'.frames = st.frames)
    (hr : st'.resolver = st.resolver) (hs : StoreOK st) : StoreOK st' := by
  intro i fr hget p hp
  rw [hf] at hget
  exact ValOK_mono (Mono_of_frames_eq hf hr) _ (hs i fr hget p hp)

theorem StoreOK_beginScope {st : St} (hs : StoreOK st) :
    StoreOK st.beginScope := by
  intro i fr hget p hp
  unfold St.beginScope at hget
  by_cases hi : i < st.frames.length
  · simp only [List.get?_eq_getElem?] at hget
    rw [List.getElem?_append_left hi] at hget
    exact ValOK_mono (Mono_beginScope st) _
      (hs i fr (by simpa [List.get?_eq_getElem?] using hget) p hp)
  · simp only [List.get?_eq_getElem?] at hget
    rw [List.getElem?_append_right (Nat.le_of_not_lt hi)] at hget
    cases hj : i - st.frames.length with
    | zero =>
        rw [hj] at hget
        simp at hget
        rw [← hget] at hp
        cases hp
    | succ k =>
        rw [hj] at hget
        simp at hget

theorem mem_addName_self (sc : SScope) (n : String) : n ∈ addName sc n := by
  unfold addName
  split
  · assumption
  · exact List.mem_cons_self n sc

theorem mem_addName_of_mem {sc : SScope} {m : String} (n : String)
    (h : m ∈ sc) : m ∈ addName sc n := by
  unfold addName
  split
  · exact h
  · exact List.mem_cons_of_mem n h

theorem Realizes_head_subset {st : St} {env : Nat} {sc sc' : SScope}
    {rest : SStack} (hsub : ∀ m, m ∈ sc' → m ∈ sc)
    (hr : Realizes st env (sc :: rest)) : Realizes st env (sc' :: rest) := by
  obtain ⟨fr, hget, hnames, htail⟩ := hr
  exact ⟨fr, hget, fun n hn => hnames n (hsub n hn), htail⟩

/-- The frame `begin_scope` pushes, at its fresh index. -/
theorem beginScope_get_new (st : St) :
    st.beginScope.frames.get? st.frames.length = some ⟨[], some st.cur⟩ := by
  unfold St.beginScope
  simp

/-- `end_scope` computed from a frame with a live enclosing pointer. -/
theorem endScopeO_of_enc {st : St} {fr : Frame} {e : Nat}
    (hget : st.frames.get? st.cur = some fr) (henc : fr.enc = some e) :
    st.endScopeO = some { st with cur := e } := by
  unfold St.endScopeO
  rw [hget]
  simp only []
  rw [henc]

/-- `declare_params` succeeds on identifier parameter tokens with
matching arity: the step is monotone, store-sound for sound arguments,
and the current frame gains every parameter name. -/
theorem declareParams_sound :
    ∀ (ps : List Token) (args : List Value) (psn : List String) (st : St)
      (sc : SScope) (rest : SStack),
      paramNames ps = some psn → ps.length = args.length →
      StoreOK st → (∀ v, v ∈ args → ValOK st v) →
      Realizes st st.cur (sc :: rest) →
      ∃ st', declareParams ps args st = some st' ∧ Mono st st' ∧
        st'.cur = st.cur ∧ StoreOK st' ∧
        Realizes st' st'.cur ((psn ++ sc) :: rest) := by
  intro ps
  induction ps with
  | nil =>
      intro args psn st sc rest hpn hlen hs hargs hr
      cases args with
      | nil =>
          cases hpn
          exact ⟨st, rfl, Mono.refl st, rfl, hs, by simpa using hr⟩
      | cons a rest2 => cases hlen
  | cons p ps ih =>
      intro args psn st sc rest hpn hlen hs hargs hr
      cases args with
      | nil => cases hlen
      | cons v vs =>
          unfold paramNames at hpn
          cases hx : p.extractIdentifier with
          | none => rw [hx] at hpn; cases hpn
          | some n =>
              rw [hx] at hpn
              cases hns : paramNames ps with
              | none => rw [hns] at hpn; cases hpn
              | some ns =>
                  rw [hns] at hpn
                  simp only [Option.map_some] at hpn
                  cases hpn
                  have hmd := (Mono_declare st n v).1
                  have hcd := (Mono_declare st n v).2
                  have hs1 : StoreOK (st.declare n v) :=
                    StoreOK_declare hs (ValOK_mono hmd v (hargs v (by simp)))
                  have hargs1 : ∀ w, w ∈ vs → ValOK (st.declare n v) w :=
                    fun w hw => ValOK_mono hmd w (hargs w (by simp [hw]))
                  have hr1 : Realizes (st.declare n v) (st.declare n v).cur
                      (addName sc n :: rest) := by
                    rw [hcd]
                    exact declare_realizes n v hr
                  obtain ⟨st', hdp, hm, hc, hsok, hre⟩ :=
                    ih vs ns (st.declare n v) (addName sc n) rest hns
                      (by simpa using hlen) hs1 hargs1 hr1
                  refine ⟨st', ?_, hmd.trans hm, hc.trans hcd, hsok, ?_⟩
                  · unfold declareParams
                    rw [hx]
                    exact hdp
                  · refine Realizes_head_subset ?_ hre
                    intro m hm2
                    rcases (by simpa using hm2 : m = n ∨ m ∈ ns ∨ m ∈ sc) with
                      rfl | hm3 | hm4
                    · exact List.mem_append_right _ (mem_addName_self sc m)
                    · exact List.mem_append_left _ hm3
                    · exact List.mem_append_right _ (mem_addName_of_mem n hm4)

/-- A unary dispatch on the operator kinds the parser produces never
panics, and its result is a sound value. -/
theorem unaryOpResult_sound {op : Token} {v : Value} {st : St}
    (hop : op.kind = .minus ∨ op.kind = .bang) :
    unaryOpResult op v st ≠ .crash ∧
    (∀ r st', unaryOpResult op v st = .ok r st' → ValOK st' r) := by
  rcases hop with hop | hop <;> (
    constructor
    · intro hc
      unfold unaryOpResult at hc
      rw [hop] at hc
      simp only [] at hc
      first
        | (split at hc <;> cases hc)
        | cases hc
    · intro r st' hr
      unfold unaryOpResult at hr
      rw [hop] at hr
      simp only [] at hr
      first
        | (split at hr <;> cases hr <;> trivial)
        | (cases hr; trivial))

/-- The binary operator table on the kinds the parser produces never
panics, and its result is a sound value. -/
theorem binaryOpResult_sound {l : Value} {op : Token} {r : Value} {st : St}
    (hop : isBinaryOpKind op.kind = true) :
    binaryOpResult l op r st ≠ .crash ∧
    (∀ v st', binaryOpResult l op r st = .ok v st' → ValOK st' v) := by
  constructor
  · intro hc
    unfold binaryOpResult at hc
    cases hk : op.kind <;> rw [hk] at hc <;> simp only [] at hc <;>
      first
        | (split at hc <;> cases hc)
        | (rw [hk] at hop; simp [isBinaryOpKind] at hop)
  · intro v st' hv
    unfold binaryOpResult at hv
    cases hk : op.kind <;> rw [hk] at hv <;> simp only [] at hv <;>
      first
        | (split at hv <;> (try cases hv) <;> trivial)
        | (rw [hk] at hop; simp [isBinaryOpKind] at hop)

/-- Formatting a sound value never panics. -/
theorem formatValue_some {st : St} {v : Value} (hv : ValOK st v) :
    ∃ s, formatValue v = some s := by
  cases v with
  | callable nmTok params body env =>
      obtain ⟨⟨s, hk⟩, _⟩ := hv
      exact ⟨"<callable " ++ s ++ ">", by
        unfold formatValue
        simp only []
        rw [extractIdentifier_of_kind hk]
        rfl⟩
  | number n => exact ⟨toString n, rfl⟩
  | str s => exact ⟨s, rfl⟩
  | bool b => exact ⟨if b then "true" else "false", rfl⟩
  | nil => exact ⟨"nil", rfl⟩

/-- The postcondition of a sound expression step from state `st`. -/
def PE (st : St) (v : Value) (st' : St) : Prop :=
  Mono st st' ∧ st'.cur = st.cur ∧ StoreOK st' ∧ ValOK st' v

/-- The postcondition of a sound statement step from state `st`,
realizing the updated static stack `S'`. -/
def PS (st : St) (S' : SStack) (sig : ControlSignal) (st' : St) : Prop :=
  Mono st st' ∧ st'.cur = st.cur ∧ StoreOK st' ∧
    Realizes st' st'.cur S' ∧ SigOK st' sig

/-- Soundness of the evaluator on resolved, parser-shaped programs:
no evaluation step panics, successful steps are monotone on the store,
keep it sound, and realize the static stack the resolver computed.
One induction on fuel across the whole mutual evaluator. -/
theorem evalSound : ∀ fuel : Nat,
    (∀ e S st, StoreOK st → Realizes st st.cur S →
      RExpr st.resolver.bindings S e →
      EvalOK (PE st) (evalExpr fuel e st)) ∧
    (∀ es S st, StoreOK st → Realizes st st.cur S →
      (∀ a, a ∈ es → RExpr st.resolver.bindings S a) →
      EvalOK (fun vs st' => Mono st st' ∧ st'.cur = st.cur ∧ StoreOK st' ∧
        vs.length = es.length ∧ ∀ v, v ∈ vs → ValOK st' v)
        (evalArgs fuel es st)) ∧
    (∀ nm ps b env args st, StoreOK st →
      ValOK st (.callable nm ps b env) → (∀ v, v ∈ args → ValOK st v) →
      ps.length = args.length →
      EvalOK (PE st) (callFun fuel nm ps b env args st)) ∧
    (∀ s S S' st, StoreOK st → Realizes st st.cur S →
      RStmt st.resolver.bindings S s S' →
      EvalOK (PS st S') (evalStmt fuel s st)) ∧
    (∀ ss S S₂ st, StoreOK st → Realizes st st.cur S →
      RStmts st.resolver.bindings ([] :: S) ss S₂ →
      EvalOK (PS st S) (evalBlock fuel ss st)) ∧
    (∀ ss S S₂ st, StoreOK st → Realizes st st.cur S →
      RStmts st.resolver.bindings S ss S₂ →
      EvalOK (fun sig st' => Mono st st' ∧ st'.cur = st.cur ∧ StoreOK st' ∧
        (sig = .noneSig → Realizes st' st'.cur S₂) ∧ SigOK st' sig)
        (evalStmtList fuel ss st)) ∧
    (∀ c b S st, StoreOK st → Realizes st st.cur S →
      RExpr st.resolver.bindings S c → RStmt st.resolver.bindings S b S →
      EvalOK (PS st S) (evalWhile fuel c b st)) := by
  intro fuel
  induction fuel with
  | zero =>
      refine ⟨?_, ?_, ?_, ?_, ?_, ?_, ?_⟩ <;> (intros; exact trivial)
  | succ f ih =>
      obtain ⟨ihE, ihA, ihC, ihS, ihB, ihL, ihW⟩ := ih
      refine ⟨?_, ?_, ?_, ?_, ?_, ?_, ?_⟩
      · intro e S st hs hr hre
        cases hre with
        | literal v hnc =>
            rw [evalExpr.eq_def]
            simp only []
            refine ⟨Mono.refl st, rfl, hs, ?_⟩
            cases v <;> first
              | trivial
              | simp [Value.isCallable] at hnc
        | grouping inner hin =>
            rw [evalExpr.eq_def]
            simp only []
            exact ihE inner S st hs hr hin
        | variableE id tok nm d sc hk hB hd hn =>
            rw [evalExpr.eq_def]
            simp only []
            rw [extractIdentifier_of_kind hk]
            simp only []
            obtain ⟨v, hv, hvok⟩ := lookup_succeeds d S st.cur st sc nm hr hd hn
            have hgv : st.getVar id nm = some v := by
              unfold St.getVar
              rw [getBoundDepth_eq, hB]
              exact hv
            rw [hgv]
            exact ⟨Mono.refl st, rfl, hs, hvok hs⟩
        | assignment id tok nm d sc e0 hk hB hd hn hre0 =>
            rw [evalExpr.eq_def]
            simp only []
            refine EvalOK.bind (ihE e0 S st hs hr hre0) ?_
            intro v1 st1 hp1
            obtain ⟨hm1, hc1, hs1, hv1⟩ := hp1
            rw [extractIdentifier_of_kind hk]
            simp only []
            have hr1 : Realizes st1 st1.cur S := by
              rw [hc1]
              exact Realizes_mono hm1 S st.cur hr
            obtain ⟨st2, ha, hm2, hc2, _, hsp⟩ :=
              assign_succeeds d S st1.cur st1 sc nm v1 hr1 hd hn
            have hav : st1.assignVar id nm v1 = some st2 := by
              unfold St.assignVar
              rw [getBoundDepth_eq, hm1.1, hB]
              exact ha
            rw [hav]
            exact ⟨hm1.trans hm2, hc2.trans hc1, hsp hs1 hv1,
              ValOK_mono hm2 _ hv1⟩
        | unary op r0 hop hr0 =>
            rw [evalExpr.eq_def]
            simp only []
            refine EvalOK.bind (ihE r0 S st hs hr hr0) ?_
            intro v1 st1 hp1
            obtain ⟨hm1, hc1, hs1, _⟩ := hp1
            cases hu : unaryOpResult op v1 st1 with
            | ok rv st2 =>
                have hst : st2 = st1 := unaryOpResult_ok hu
                subst hst
                exact ⟨hm1, hc1, hs1, (unaryOpResult_sound hop).2 rv st2 hu⟩
            | err e1 s1 => trivial
            | crash => exact absurd hu (unaryOpResult_sound hop).1
            | timeout => trivial
        | binary l0 op r0 hop hl0 hr0 =>
            rw [evalExpr.eq_def]
            simp only []
            refine EvalOK.bind (ihE l0 S st hs hr hl0) ?_
            intro v1 st1 hp1
            obtain ⟨hm1, hc1, hs1, _⟩ := hp1
            refine EvalOK.bind
              (ihE r0 S st1 hs1
                (by rw [hc1]; exact Realizes_mono hm1 S st.cur hr)
                (by rw [hm1.1]; exact hr0)) ?_
            intro v2 st2 hp2
            obtain ⟨hm2, hc2, hs2, _⟩ := hp2
            cases hu : binaryOpResult v1 op v2 st2 with
            | ok rv st3 =>
                have hst : st3 = st2 := binaryOpResult_ok hu
                subst hst
                exact ⟨hm1.trans hm2, hc2.trans hc1, hs2,
                  (binaryOpResult_sound hop).2 rv st3 hu⟩
            | err e1 s1 => trivial
            | crash => exact absurd hu (binaryOpResult_sound hop).1
            | timeout => trivial
        | logical l0 op r0 hop hl0 hr0 =>
            rw [evalExpr.eq_def]
            simp only []
            rcases hop with hk | hk <;>
              · rw [hk]
                simp only []
                refine EvalOK.bind (ihE l0 S st hs hr hl0) ?_
                intro v1 st1 hp1
                obtain ⟨hm1, hc1, hs1, _⟩ := hp1
                split
                · exact ⟨hm1, hc1, hs1, trivial⟩
                · refine EvalOK.bind
                    (ihE r0 S st1 hs1
                      (by rw [hc1]; exact Realizes_mono hm1 S st.cur hr)
                      (by rw [hm1.1]; exact hr0)) ?_
                  intro v2 st2 hp2
                  exact ⟨hm1.trans hp2.1, hp2.2.1.trans hc1,
                    hp2.2.2.1, trivial⟩
        | funCall callee paren args hcal hargs =>
            rw [evalExpr.eq_def]
            simp only []
            refine EvalOK.bind (ihE callee S st hs hr hcal) ?_
            intro v1 st1 hp1
            obtain ⟨hm1, hc1, hs1, hv1⟩ := hp1
            cases v1 with
            | callable nm ps bdy env =>
                simp only []
                by_cases hlen : ps.length ≠ args.length
                · rw [if_pos hlen]
                  trivial
                · rw [if_neg hlen]
                  refine EvalOK.bind
                    (ihA args S st1 hs1
                      (by rw [hc1]; exact Realizes_mono hm1 S st.cur hr)
                      (fun a ha => by rw [hm1.1]; exact hargs a ha)) ?_
                  intro vs st2 hp2
                  obtain ⟨hm2, hc2, hs2, hlen2, hvs⟩ := hp2
                  refine EvalOK.weaken
                    (ihC nm ps bdy env vs st2 hs2 (ValOK_mono hm2 _ hv1) hvs
                      ((of_not_not hlen).trans hlen2.symm)) ?_
                  intro v3 st3 hp3
                  exact ⟨(hm1.trans hm2).trans hp3.1,
                    hp3.2.1.trans (hc2.trans hc1), hp3.2.2.1, hp3.2.2.2⟩
            | number n => trivial
            | str s => trivial
            | bool b => trivial
            | nil => trivial
      · intro es S st hs hr hargs
        rw [evalArgs.eq_def]
        simp only []
        cases es with
        | nil =>
            exact ⟨Mono.refl st, rfl, hs, rfl,
              fun v hv => absurd hv (List.not_mem_nil v)⟩
        | cons a rest =>
            refine EvalOK.bind
              (ihE a S st hs hr (hargs a (List.mem_cons_self a rest))) ?_
            intro v1 st1 hp1
            obtain ⟨hm1, hc1, hs1, hv1⟩ := hp1
            refine EvalOK.bind
              (ihA rest S st1 hs1
                (by rw [hc1]; exact Realizes_mono hm1 S st.cur hr)
                (fun b hb => by
                  rw [hm1.1]
                  exact hargs b (List.mem_cons_of_mem a hb))) ?_
            intro vs st2 hp2
            obtain ⟨hm2, hc2, hs2, hlen2, hvs⟩ := hp2
            refine ⟨hm1.trans hm2, hc2.trans hc1, hs2, by simp [hlen2], ?_⟩
            intro v hv
            rcases List.mem_cons.mp hv with rfl | hvm
            · exact ValOK_mono hm2 _ hv1
            · exact hvs v hvm
      · intro nm ps b env args st hs hv hargs hlen
        obtain ⟨⟨s, hk⟩, psn, S₀, hpsn, hre, hbody⟩ := hv
        rw [callFun.eq_def]
        simp only []
        rw [if_neg (not_not_intro hlen)]
        simp only [St.swapEnvironment]
        have hmI : Mono st ({ st with cur := env } : St) :=
          Mono_of_frames_eq rfl rfl
        have hsI : StoreOK ({ st with cur := env } : St) :=
          StoreOK_transfer
            (show ({ st with cur := env } : St).frames = st.frames from rfl)
            rfl hs
        have hreI : Realizes ({ st with cur := env } : St) env S₀ :=
          Realizes_mono hmI S₀ env hre
        obtain ⟨st', hdp, hm', hc', hs', hre'⟩ :=
          declareParams_sound ps args psn
            ({ st with cur := env } : St).beginScope [] S₀ hpsn hlen
            (StoreOK_beginScope hsI)
            (fun v hv => ValOK_mono (hmI.trans (Mono_beginScope _)) v
              (hargs v hv))
            (beginScope_realizes hreI)
        rw [hdp]
        simp only []
        have hmono0 : Mono st st' :=
          (hmI.trans (Mono_beginScope _)).trans hm'
        have hre2 : Realizes st' st'.cur (psn :: S₀) := by
          have h0 := hre'
          rw [List.append_nil] at h0
          exact h0
        refine EvalOK.bind
          (ihS b (psn :: S₀) (psn :: S₀) st' hs'
            hre2 (by rw [hmono0.1]; exact hbody)) ?_
        intro sig st4 hp4
        obtain ⟨hm4, hc4, hs4, hre4, hsig4⟩ := hp4
        obtain ⟨fr', hg', henc', _⟩ :=
          hm'.2.2 st.frames.length ⟨[], some env⟩
            (beginScope_get_new ({ st with cur := env } : St))
        obtain ⟨fr4, hg4, henc4, _⟩ := hm4.2.2 st.frames.length fr' hg'
        have hcur4 : st4.cur = st.frames.length := hc4.trans hc'
        have hend : st4.endScopeO = some { st4 with cur := env } :=
          endScopeO_of_enc (by rw [hcur4]; exact hg4) (henc4.trans henc')
        have hm5 : Mono st { st4 with cur := st.cur } :=
          (hmono0.trans hm4).trans (Mono_of_frames_eq rfl rfl)
        cases sig with
        | noneSig =>
            simp only []
            rw [hend]
            simp only [St.swapEnvironment]
            exact ⟨hm5, rfl,
              StoreOK_transfer
                (show ({ st4 with cur := st.cur } : St).frames = st4.frames
                  from rfl) rfl hs4, trivial⟩
        | ret v =>
            simp only []
            rw [hend]
            simp only [St.swapEnvironment]
            exact ⟨hm5, rfl,
              StoreOK_transfer
                (show ({ st4 with cur := st.cur } : St).frames = st4.frames
                  from rfl) rfl hs4,
              ValOK_mono
                (Mono_of_frames_eq
                  (show ({ st4 with cur := st.cur } : St).frames = st4.frames
                    from rfl) rfl) v hsig4⟩
      · intro s S S' st hs hr hst
        cases hst with
        | exprStmt S e he =>
            rw [evalStmt.eq_def]
            simp only []
            refine EvalOK.bind (ihE e S st hs hr he) ?_
            intro v st1 hp1
            exact ⟨hp1.1, hp1.2.1, hp1.2.2.1,
              by rw [hp1.2.1]; exact Realizes_mono hp1.1 S st.cur hr,
              trivial⟩
        | printStmt S e he =>
            rw [evalStmt.eq_def]
            simp only []
            refine EvalOK.bind (ihE e S st hs hr he) ?_
            intro v st1 hp1
            obtain ⟨hm1, hc1, hs1, hv1⟩ := hp1
            obtain ⟨line, hfmt⟩ := formatValue_some hv1
            rw [hfmt]
            simp only []
            have hmf : Mono st1 ({ st1 with out := st1.out ++ [line] } : St) :=
              Mono_of_frames_eq rfl rfl
            refine ⟨hm1.trans hmf, hc1, ?_, ?_, trivial⟩
            · exact StoreOK_transfer
                (show ({ st1 with out := st1.out ++ [line] } : St).frames
                  = st1.frames from rfl) rfl hs1
            · have h2 := Realizes_mono (hm1.trans hmf) S st.cur hr
              rwa [← hc1] at h2
        | returnS S e he =>
            rw [evalStmt.eq_def]
            simp only []
            refine EvalOK.bind (ihE e S st hs hr he) ?_
            intro v st1 hp1
            exact ⟨hp1.1, hp1.2.1, hp1.2.2.1,
              by rw [hp1.2.1]; exact Realizes_mono hp1.1 S st.cur hr,
              hp1.2.2.2⟩
        | varDeclSome sc rest tok n e htk hre =>
            rw [evalStmt.eq_def]
            simp only []
            refine EvalOK.bind (ihE e (sc :: rest) st hs hr hre) ?_
            intro v st1 hp1
            obtain ⟨hm1, hc1, hs1, hv1⟩ := hp1
            rw [extractIdentifier_of_kind htk]
            simp only []
            have hr1 : Realizes st1 st1.cur (sc :: rest) := by
              rw [hc1]
              exact Realizes_mono hm1 _ st.cur hr
            refine ⟨hm1.trans (Mono_declare st1 n v).1,
              (Mono_declare st1 n v).2.trans hc1,
              StoreOK_declare hs1 (ValOK_mono (Mono_declare st1 n v).1 v hv1),
              ?_, trivial⟩
            rw [(Mono_declare st1 n v).2]
            exact declare_realizes n v hr1
        | varDeclNone sc rest tok n htk =>
            rw [evalStmt.eq_def]
            simp only [Res.andThen]
            rw [extractIdentifier_of_kind htk]
            simp only []
            refine ⟨(Mono_declare st n Value.nil).1,
              (Mono_declare st n Value.nil).2,
              StoreOK_declare hs trivial, ?_, trivial⟩
            rw [(Mono_declare st n Value.nil).2]
            exact declare_realizes n Value.nil hr
        | block S ss S₂ hss =>
            rw [evalStmt.eq_def]
            simp only []
            exact ihB ss S S₂ st hs hr hss
        | ifS S c t eOpt hcnd hthen helse =>
            rw [evalStmt.eq_def]
            simp only []
            refine EvalOK.bind (ihE c S st hs hr hcnd) ?_
            intro v st1 hp1
            obtain ⟨hm1, hc1, hs1, _⟩ := hp1
            have hr1 : Realizes st1 st1.cur S := by
              rw [hc1]
              exact Realizes_mono hm1 S st.cur hr
            split
            · refine EvalOK.weaken
                (ihS t S S st1 hs1 hr1 (by rw [hm1.1]; exact hthen)) ?_
              intro sig st2 hp2
              exact ⟨hm1.trans hp2.1, hp2.2.1.trans hc1, hp2.2.2.1,
                hp2.2.2.2.1, hp2.2.2.2.2⟩
            · cases eOpt with
              | some els =>
                  simp only []
                  refine EvalOK.weaken
                    (ihS els S S st1 hs1 hr1
                      (by rw [hm1.1]; exact helse els rfl)) ?_
                  intro sig st2 hp2
                  exact ⟨hm1.trans hp2.1, hp2.2.1.trans hc1, hp2.2.2.1,
                    hp2.2.2.2.1, hp2.2.2.2.2⟩
              | none =>
                  simp only []
                  exact ⟨hm1, hc1, hs1, hr1, trivial⟩
        | whileS S c b hcnd hbody =>
            rw [evalStmt.eq_def]
            simp only []
            exact ihW c b S st hs hr hcnd hbody
        | funDecl sc rest nmTok fn params psn body htk hpsn hbody =>
            rw [evalStmt.eq_def]
            simp only []
            rw [extractIdentifier_of_kind htk]
            simp only []
            refine ⟨(Mono_declare st fn _).1, (Mono_declare st fn _).2,
              StoreOK_declare hs ?_, ?_, trivial⟩
            · refine ⟨⟨fn, htk⟩, psn, addName sc fn :: rest, hpsn,
                declare_realizes fn _ hr, ?_⟩
              rw [(Mono_declare st fn _).1.1]
              exact hbody
            · rw [(Mono_declare st fn _).2]
              exact declare_realizes fn _ hr
      · intro ss S S₂ st hs hr hss
        rw [evalBlock.eq_def]
        simp only []
        refine EvalOK.bind
          (ihL ss ([] :: S) S₂ st.beginScope (StoreOK_beginScope hs)
            (beginScope_realizes hr)
            (by rw [(Mono_beginScope st).1]; exact hss)) ?_
        intro sig st1 hp1
        obtain ⟨hm1, hc1, hs1, _, hsig1⟩ := hp1
        obtain ⟨fr1, hg1, henc1, _⟩ :=
          hm1.2.2 st.frames.length ⟨[], some st.cur⟩ (beginScope_get_new st)
        have hend : st1.endScopeO = some { st1 with cur := st.cur } :=
          endScopeO_of_enc (by rw [hc1]; exact hg1) henc1
        rw [hend]
        simp only []
        have hmf : Mono st1 ({ st1 with cur := st.cur } : St) :=
          Mono_of_frames_eq rfl rfl
        exact ⟨((Mono_beginScope st).trans hm1).trans hmf, rfl,
          StoreOK_transfer
            (show ({ st1 with cur := st.cur } : St).frames = st1.frames
              from rfl) rfl hs1,
          Realizes_mono (((Mono_beginScope st).trans hm1).trans hmf)
            S st.cur hr,
          SigOK_mono hmf sig hsig1⟩
      · intro ss S S₂ st hs hr hss
        cases hss with
        | nil =>
            rw [evalStmtList.eq_def]
            simp only []
            exact ⟨Mono.refl st, rfl, hs, fun _ => hr, trivial⟩
        | cons S s S₁ ss2 S₂ hstmt hrest =>
            rw [evalStmtList.eq_def]
            simp only []
            refine EvalOK.bind (ihS s S S₁ st hs hr hstmt) ?_
            intro sig st1 hp1
            obtain ⟨hm1, hc1, hs1, hre1, hsig1⟩ := hp1
            cases sig with
            | noneSig =>
                simp only []
                refine EvalOK.weaken
                  (ihL ss2 S₁ S₂ st1 hs1 hre1
                    (by rw [hm1.1]; exact hrest)) ?_
                intro sig2 st2 hp2
                exact ⟨hm1.trans hp2.1, hp2.2.1.trans hc1, hp2.2.2.1,
                  hp2.2.2.2.1, hp2.2.2.2.2⟩
            | ret v =>
                simp only []
                exact ⟨hm1, hc1, hs1, fun h => ControlSignal.noConfusion h,
                  hsig1⟩
      · intro c b S st hs hr hcnd hbody
        rw [evalWhile.eq_def]
        simp only []
        refine EvalOK.bind (ihE c S st hs hr hcnd) ?_
        intro v st1 hp1
        obtain ⟨hm1, hc1, hs1, _⟩ := hp1
        have hr1 : Realizes st1 st1.cur S := by
          rw [hc1]
          exact Realizes_mono hm1 S st.cur hr
        split
        · refine EvalOK.bind
            (ihS b S S st1 hs1 hr1 (by rw [hm1.1]; exact hbody)) ?_
          intro sig st2 hp2
          obtain ⟨hm2, hc2, hs2, hre2, _⟩ := hp2
          refine EvalOK.weaken
            (ihW c b S st2 hs2 hre2
              (by rw [hm2.1, hm1.1]; exact hcnd)
              (by rw [hm2.1, hm1.1]; exact hbody)) ?_
          intro sig3 st3 hp3
          exact ⟨(hm1.trans hm2).trans hp3.1, hp3.2.1.trans (hc2.trans hc1),
            hp3.2.2.1, hp3.2.2.2.1, hp3.2.2.2.2⟩
        · exact ⟨hm1, hc1, hs1, hr1, trivial⟩

/-- Inversion for a resolution derivation of a statement cons. -/
theorem RStmts_cons_inv {B : List (Nat × Nat)} {S : SStack} {s : Stmt}
    {ss : List Stmt} {S₂ : SStack} (h : RStmts B S (s :: ss) S₂) :
    ∃ S₁, RStmt B S s S₁ ∧ RStmts B S₁ ss S₂ :=
  match h with
  | .cons _ _ S₁ _ _ h1 h2 => ⟨S₁, h1, h2⟩

/-- Running a resolved statement list from a sound, realizing state
never panics, whatever the fuel. -/
theorem interpret_no_crash_aux :
    ∀ (stmts : List Stmt) (S S₂ : SStack) (fuel : Nat) (st : St),
      StoreOK st → Realizes st st.cur S →
      RStmts st.resolver.bindings S stmts S₂ →
      interpret fuel stmts st ≠ .crash := by
  intro stmts
  induction stmts with
  | nil =>
      intro S S₂ fuel st _ _ _ hc
      simp [interpret] at hc
  | cons s rest ih =>
      intro S S₂ fuel st hs hr hss hc
      obtain ⟨S₁, hstmt, hrest⟩ := RStmts_cons_inv hss
      rw [interpret.eq_def] at hc
      simp only [] at hc
      have hOK := (evalSound fuel).2.2.2.1 s S S₁ st hs hr hstmt
      cases hres : evalStmt fuel s st with
      | ok sig st1 =>
          rw [hres] at hc hOK
          obtain ⟨hm1, _, hs1, hre1, _⟩ := hOK
          simp only [Res.andThen] at hc
          exact ih S₁ S₂ fuel st1 hs1 hre1
            (by rw [hm1.1]; exact hrest) hc
      | err e1 s1 =>
          rw [hres] at hc
          simp [Res.andThen] at hc
      | crash =>
          rw [hres] at hOK
          exact hOK
      | timeout =>
          rw [hres] at hc
          simp [Res.andThen] at hc

/-- C9 (amended): on a parser-shaped program — distinct use-site ids
and declarations only in declaration positions, as captured by a
resolution derivation `RStmts` over the resolver's final bindings —
every variable read and every assignment the evaluator executes
succeeds: the use-site id is in the depth map, the environment chain
is at least that deep, the frame reached binds the name, and the
internal lookup-failure branches (the `crash` outcome) are
unreachable.  The claim as stated, quantified over every AST the
resolver accepts without errors, is refuted by
`resolved_lookup_crash_counterexample`. -/
theorem resolved_lookup_total (fuel : Nat) (stmts : List Stmt)
    (S₂ : SStack) (r : RState)
    (h : RStmts r.bindings [[]] stmts S₂) :
    interpret fuel stmts (St.init r) ≠ .crash := by
  refine interpret_no_crash_aux stmts [[]] S₂ fuel (St.init r) ?_ ?_ h
  · intro i fr hget p hp
    cases i with
    | zero =>
        cases hget
        cases hp
    | succ n => cases hget
  · exact ⟨⟨[], none⟩, rfl, fun n hn => absurd hn (List.not_mem_nil n),
      Or.inl rfl⟩

/-- The amended C9 theorem at a concrete resolved program:
`var x = nil; print x;` with use-site id 1 bound at depth 0. -/
theorem resolved_lookup_total_witness :
    interpret 10
      [.varDecl ⟨1, 5, .identifier "x"⟩ (some (.literal .nil)),
       .printStmt (.variableE 1 ⟨1, 5, .identifier "x"⟩)]
      (St.init ⟨[[]], [(1, 0)], []⟩) ≠ .crash :=
  resolved_lookup_total 10
    [.varDecl ⟨1, 5, .identifier "x"⟩ (some (.literal .nil)),
     .printStmt (.variableE 1 ⟨1, 5, .identifier "x"⟩)]
    (addName [] "x" :: []) ⟨[[]], [(1, 0)], []⟩
    (RStmts.cons _ _ _ _ _
      (RStmt.varDeclSome [] [] _ "x" _ rfl (RExpr.literal _ .nil rfl))
      (RStmts.cons _ _ _ _ _
        (RStmt.printStmt _ _
          (RExpr.variableE _ 1 _ "x" 0 (addName [] "x") rfl rfl rfl
            (mem_addName_self [] "x")))
        (RStmts.nil _)))
